import Mathlib

/-!
# Verification of `src/utilities/CUR.py`

A shallow embedding of the CUR decomposition module (`CUR.py`) and proofs
about it.  Matrices are embedded as dynamically-shaped dense rational
matrices (`Mat`), mirroring numpy's dynamically shaped float arrays in
exact arithmetic.  External numerical-library routines that the code
calls (`scipy.sparse.linalg.svds`, `numpy.linalg.pinv`, `numpy.sqrt`,
and the repository's `sorted_eig` helper, which lives in
`utilities/general.py` and is not part of the sources under review) are
embedded as explicit oracle parameters: each function of the module is
parameterised by the oracle it calls, and theorems either hold for every
oracle or state the library/dependency contract as a hypothesis.
-/

namespace CURPy

/-- A dense rational matrix with dynamic shape, mirroring a 2-d numpy
array.  `e i j` is the entry in row `i`, column `j`; entries outside the
declared `r × c` range are kept at `0` by every constructor below. -/
structure Mat where
  r : ℕ
  c : ℕ
  e : ℕ → ℕ → ℚ

/-- Smart constructor: clip the entry function outside the `r × c` range
so that matrices built by the model's operations agree as functions
whenever they agree entrywise on their range. -/
def Mat.of (r c : ℕ) (f : ℕ → ℕ → ℚ) : Mat :=
  ⟨r, c, fun i j => if i < r ∧ j < c then f i j else 0⟩

/-- A matrix is clipped when all entries outside its range are `0`.
Every matrix produced by the model's operations is clipped. -/
def Mat.Clipped (M : Mat) : Prop :=
  ∀ i j, ¬(i < M.r ∧ j < M.c) → M.e i j = 0

/-- Entrywise equality on the common range together with equal shapes:
the observational equality of two numpy arrays.  Decidable, hence usable
in concrete witnesses. -/
def Mat.eqv (A B : Mat) : Prop :=
  A.r = B.r ∧ A.c = B.c ∧ ∀ i < A.r, ∀ j < A.c, A.e i j = B.e i j

instance (A B : Mat) : Decidable (A.eqv B) := by
  unfold Mat.eqv
  exact instDecidableAnd

/-- `numpy` transpose. -/
def Mat.transpose (M : Mat) : Mat :=
  Mat.of M.c M.r (fun i j => M.e j i)

/-- `numpy.matmul` on 2-d arrays (the inner dimension is taken from the
left factor; the code only multiplies conformable matrices). -/
def Mat.mul (A B : Mat) : Mat :=
  Mat.of A.r B.c (fun i j => ∑ t ∈ Finset.range A.c, A.e i t * B.e t j)

/-- Entrywise subtraction (shapes taken from the left operand). -/
def Mat.sub (A B : Mat) : Mat :=
  Mat.of A.r A.c (fun i j => A.e i j - B.e i j)

/-- Entrywise addition (shapes taken from the left operand). -/
def Mat.add (A B : Mat) : Mat :=
  Mat.of A.r A.c (fun i j => A.e i j + B.e i j)

/-- Scalar multiple. -/
def Mat.smul (q : ℚ) (A : Mat) : Mat :=
  Mat.of A.r A.c (fun i j => q * A.e i j)

/-- `A.copy()`: same entries, clipped to the declared shape. -/
def Mat.copy (M : Mat) : Mat :=
  Mat.of M.r M.c M.e

/-- `A[:, idxs]` for a list of column indices. -/
def Mat.colsAt (M : Mat) (l : List ℕ) : Mat :=
  Mat.of M.r l.length (fun i k => M.e i (l.getD k 0))

/-- `A[idxs]` (row selection) for a list of row indices. -/
def Mat.rowsAt (M : Mat) (l : List ℕ) : Mat :=
  Mat.of l.length M.c (fun k j => M.e (l.getD k 0) j)

/-- Squared Frobenius norm: `np.linalg.norm(M)**2`. -/
def Mat.frobSq (M : Mat) : ℚ :=
  ∑ i ∈ Finset.range M.r, ∑ j ∈ Finset.range M.c, M.e i j ^ 2

end CURPy

namespace CURPy

/-! ## Selection scoring primitives -/

/-- Leverage scores from the right-singular-vector block returned by the
SVD oracle: `pi = (D[:k]**2.0).sum(axis=0)` (CUR.py line 67).  `D i j`
is the `j`-th component of the `i`-th returned right singular vector;
the sum ranges over all `k` returned vectors, so their order is
irrelevant to the score. -/
def svdPi (k : ℕ) (D : ℕ → ℕ → ℚ) (j : ℕ) : ℚ :=
  ∑ i ∈ Finset.range k, (D i j) ^ 2

/-- PCovR scores from the top-`k` eigenvector block of `Ct`:
`pi = (np.real(U_Ct)[:, :k]**2.0).sum(axis=1)` (CUR.py line 102).
`U j i` is the `j`-th component of the `i`-th eigenvector; the model
works in exact real (rational) arithmetic so `np.real` is the
identity. -/
def pcovrPi (k : ℕ) (U : ℕ → ℕ → ℚ) (j : ℕ) : ℚ :=
  ∑ i ∈ Finset.range k, (U j i) ^ 2

/-- `pi[idxs] = 0`: zero the scores of already-selected indices
(CUR.py lines 68, 103). -/
def zeroAt (pi : ℕ → ℚ) (idxs : List ℕ) (j : ℕ) : ℚ :=
  if j ∈ idxs then 0 else pi j

/-- `np.argmax` over indices `0, …, c-1`: the first index attaining the
maximum (ties keep the lowest index, matching numpy's first-occurrence
semantics). -/
def argmaxUpTo (f : ℕ → ℚ) : ℕ → ℕ
  | 0 => 0
  | n + 1 =>
      let b := argmaxUpTo f n
      if f b < f n then n else b

/-- One deflation step (CUR.py lines 72–76 and 107–111): with
`cⱼ = M[:, j]`, the code forms `v = cⱼ / √(cⱼᵀcⱼ)` and performs
`M[:, i] -= v * (vᵀ M[:, i])` for every column `i`.  Since
`v (vᵀ x) = cⱼ (cⱼᵀ x) / (cⱼᵀ cⱼ)`, the update is rational and is
embedded without the square root.  When `cⱼᵀcⱼ = 0` the code divides by
zero and produces NaNs (the spec flags this as an open numerical issue,
§7); the model's rational division by zero makes the step a no-op,
which only matters past rank exhaustion. -/
def deflate (M : Mat) (j : ℕ) : Mat :=
  Mat.of M.r M.c (fun i i' =>
    M.e i i' -
      M.e i j * (∑ t ∈ Finset.range M.r, M.e t j * M.e t i') /
        (∑ t ∈ Finset.range M.r, M.e t j * M.e t j))

/-! ## `svd_select` (CUR.py lines 53–78)

The call `(S, v, D) = svd(Acopy, k)` to `scipy.sparse.linalg.svds` is
embedded as an oracle `O : Mat → ℕ → ℕ → ℚ` returning the
right-singular-vector block `D` of its argument; only `D` is used by
the code. -/

/-- The selection loop of `svd_select`: state is the working copy and
the (caller-aliased) index list; `nn` is the round counter and the
first argument the remaining number of rounds. -/
def svdGo (k : ℕ) (O : Mat → ℕ → ℕ → ℚ) :
    ℕ → ℕ → Mat → List ℕ → Mat × List ℕ
  | 0, _, M, idxs => (M, idxs)
  | fuel + 1, nn, M, idxs =>
      let idxs' :=
        if idxs.length ≤ nn then
          idxs ++ [argmaxUpTo (zeroAt (svdPi k (O M)) idxs) M.c]
        else idxs
      svdGo k O fuel (nn + 1) (deflate M (idxs'.getD nn 0)) idxs'

/-- `svd_select(A, n, k=1, idxs=None)`: returns `list(idxs)`, the value
of the index list when the loop finishes. -/
def svd_select (O : Mat → ℕ → ℕ → ℚ) (A : Mat) (n : ℕ) (k : ℕ)
    (idxs₀ : Option (List ℕ)) : List ℕ :=
  (svdGo k O n 0 A.copy (idxs₀.getD [])).2

/-! ## `get_Ct` (CUR.py lines 31–50)

`sorted_eig` is imported from `utilities/general.py`, which is not among
the sources under review.  Modelled from the spec: `sorted_eig` returns
eigenpairs sorted by descending eigenvalue, truncated to the top `n` or
filtered below a `thresh` (§6), and covariance construction fails with a
rank-deficiency error, propagated as an exception, when no eigenvalue
survives the regularization floor (§4.3, §7).  The thresholded call is
the oracle `eigTh`, returning a list of (eigenvalue, eigenvector)
pairs or `.error ()` on rank deficiency; `np.sqrt` is the oracle
`rsqrt`. -/

/-- `U · diag(w(v)) · Uᵀ` for an eigenpair list: entry `(i, j)` is
`Σₚ w(λₚ) uₚ(i) uₚ(j)`.  Used for `Csqrt` (`w = √`) and `Cinv`
(`w = 1/·`), CUR.py lines 39–40. -/
def formUWUt (c : ℕ) (pairs : List (ℚ × (ℕ → ℚ))) (w : ℚ → ℚ) : Mat :=
  Mat.of c c (fun i j => (pairs.map (fun p => w p.1 * p.2 i * p.2 j)).sum)

/-- `get_Ct(X, Y, alpha=0.5, regularization=1e-6)`: the PCovR modified
covariance.  Follows CUR.py lines 34–50 statement by statement; the
eigenpairs with eigenvalue `> regularization` survive (strict, matching
`v_C > regularization`). -/
def get_Ct (eigTh : Mat → Except Unit (List (ℚ × (ℕ → ℚ))))
    (rsqrt : ℚ → ℚ) (X Y : Mat) (alpha : ℚ) (regularization : ℚ) :
    Except Unit Mat :=
  let cov := X.transpose.mul X
  match eigTh cov with
  | .error u => .error u
  | .ok pairs =>
      let pairs' := pairs.filter (fun p => regularization < p.1)
      let Csqrt := formUWUt cov.c pairs' rsqrt
      let Cinv := formUWUt cov.c pairs' (fun v => 1 / v)
      let C_lr1 := Cinv.mul (X.transpose.mul Y)
      let C_lr2 := Csqrt.mul C_lr1
      let C_lr := C_lr2.mul C_lr2.transpose
      let C_pca := cov
      .ok ((Mat.smul alpha C_pca).add (Mat.smul (1 - alpha) C_lr))

/-! ## `update` (CUR.py lines 116–124) -/

/-- `update(Y_copy, X_c)`: replaces the property matrix by its residual
after regressing on the selected columns.  The in-place mutation of
`Y_copy` is modelled by returning its new value.  `np.linalg.pinv` is
the oracle `pinvO`. -/
def update (pinvO : Mat → Mat) (Y_copy X_c : Mat) : Mat :=
  let v1 := pinvO (X_c.transpose.mul X_c)
  let v2 := X_c.mul v1
  let v3 := v2.mul X_c.transpose
  Y_copy.sub (v3.mul Y_copy)

/-! ## `pcovr_select` (CUR.py lines 81–114)

The second use of `sorted_eig`, `sorted_eig(Ct, n=k)` (line 100), is
the truncated top-`k` call; it is embedded as the oracle `eigTop`
returning the eigenvector block `U_Ct` (column `i` = `i`-th
eigenvector) of its argument. -/

/-- The selection loop of `pcovr_select`: state is the working copies of
`A` and `Y` and the index list.  A failure of `get_Ct` in a fresh round
returns the state immediately (`except: return list(idxs)`, lines
97–99). -/
def pcovrGo (eigTh : Mat → Except Unit (List (ℚ × (ℕ → ℚ))))
    (rsqrt : ℚ → ℚ) (eigTop : Mat → ℕ → ℕ → ℚ) (pinvO : Mat → Mat)
    (alpha : ℚ) (k : ℕ) :
    ℕ → ℕ → Mat → Mat → List ℕ → Mat × Mat × List ℕ
  | 0, _, M, Yc, idxs => (M, Yc, idxs)
  | fuel + 1, nn, M, Yc, idxs =>
      if idxs.length ≤ nn then
        match get_Ct eigTh rsqrt M Yc alpha (1 / 1000000) with
        | .error _ => (M, Yc, idxs)
        | .ok Ct =>
            let j := argmaxUpTo (zeroAt (pcovrPi k (eigTop Ct)) idxs) M.c
            let idxs' := idxs ++ [j]
            let M' := deflate M (idxs'.getD nn 0)
            pcovrGo eigTh rsqrt eigTop pinvO alpha k fuel (nn + 1) M'
              (update pinvO Yc (M'.colsAt idxs')) idxs'
      else
        let M' := deflate M (idxs.getD nn 0)
        pcovrGo eigTh rsqrt eigTop pinvO alpha k fuel (nn + 1) M'
          (update pinvO Yc (M'.colsAt idxs)) idxs

/-- `pcovr_select(A, n, Y, alpha, k=1, idxs=None)`; `get_Ct` is invoked
with its default `regularization=1e-6`. -/
def pcovr_select (eigTh : Mat → Except Unit (List (ℚ × (ℕ → ℚ))))
    (rsqrt : ℚ → ℚ) (eigTop : Mat → ℕ → ℕ → ℚ) (pinvO : Mat → Mat)
    (A : Mat) (n : ℕ) (Y : Mat) (alpha : ℚ) (k : ℕ)
    (idxs₀ : Option (List ℕ)) : List ℕ :=
  (pcovrGo eigTh rsqrt eigTop pinvO alpha k n 0 A.copy Y.copy
    (idxs₀.getD [])).2.2

end CURPy

namespace CURPy

/-! ## The `CUR` class (CUR.py lines 130–238)

The selection strategy is abstracted as a function
`Mat → ℕ → Option (List ℕ) → List ℕ` — the string dispatch through the
`selections` dictionary and the forwarding of `**self.params` are
modelled by partially applying `svd_select` / `pcovr_select` (or any
caller-supplied strategy) to their oracles and extra parameters. -/

/-- Truthiness of `np.all(M)` for a float array: every entry nonzero. -/
def npAllNonzero (M : Mat) : Bool :=
  decide (∀ i < M.r, ∀ j < M.c, ¬ M.e i j = 0)

/-- Entrywise absolute value, `np.abs` (written without the lattice
`abs` so that concrete instances evaluate by kernel reduction). -/
def Mat.absM (M : Mat) : Mat :=
  Mat.of M.r M.c (fun i j => if M.e i j < 0 then -M.e i j else M.e i j)

/-- The symmetry detection of the constructor, exactly as written on
CUR.py lines 156–157:
`self.A.shape == self.A.T.shape and np.all(np.abs(self.A-self.A.T)) < symmetry_tolerance`.
Note the placement of the parentheses in the source: `np.all` is applied
to the bare entrywise absolute difference (giving the boolean "every
entry is nonzero", which Python then coerces to `1.0` or `0.0` for the
comparison with the tolerance) — not to an entrywise comparison with the
tolerance. -/
def symmetricFlag (A : Mat) (tol : ℚ) : Bool :=
  (decide ((A.r, A.c) = (A.transpose.r, A.transpose.c))) &&
    (decide (((if npAllNonzero ((A.sub A.transpose).absM) then (1 : ℚ) else 0)) < tol))

/-- The mutable attributes of a `CUR` instance that the claims concern:
the matrix, the two mode flags, the selection strategy and the cached
index lists (`None` until first computed). -/
structure CUR where
  A : Mat
  symmetric : Bool
  fs : Bool
  select : Mat → ℕ → Option (List ℕ) → List ℕ
  idx_c : Option (List ℕ)
  idx_r : Option (List ℕ)

/-- `CUR.__init__` without `precompute`: derives the symmetry flag and
starts with empty caches. -/
def CUR.init (matrix : Mat) (feature_select : Bool)
    (pi_function : Mat → ℕ → Option (List ℕ) → List ℕ)
    (symmetry_tolerance : ℚ) : CUR :=
  { A := matrix
    symmetric := symmetricFlag matrix symmetry_tolerance
    fs := feature_select
    select := pi_function
    idx_c := none
    idx_r := none }

/-- `CUR.compute_idx(n_c, n_r)` (lines 180–188): runs the selection for
columns (resuming from the cached `idx_c`) and for rows — the full
column range in feature-select mode, a selection on `Aᵀ` when not
symmetric, and the column result itself when symmetric. -/
def CUR.compute_idx (self : CUR) (n_c n_r : ℕ) : List ℕ × List ℕ :=
  let idx_c := self.select self.A n_c self.idx_c
  let idx_r :=
    if self.fs then List.range self.A.c
    else if !self.symmetric then self.select self.A.transpose n_r self.idx_r
    else idx_c
  (idx_c, idx_r)

/-- `CUR.__init__` with `precompute`: an `int` argument `p` is passed as
`(p, p)`, a pair is splatted. -/
def CUR.initPre (matrix : Mat) (feature_select : Bool)
    (pi_function : Mat → ℕ → Option (List ℕ) → List ℕ)
    (symmetry_tolerance : ℚ) (precompute : Option (ℕ × ℕ)) : CUR :=
  let cur := CUR.init matrix feature_select pi_function symmetry_tolerance
  match precompute with
  | none => cur
  | some (nc, nr) =>
      let p := cur.compute_idx nc nr
      { cur with idx_c := some p.1, idx_r := some p.2 }

/-- `CUR.compute(n_c, n_r=None)` (lines 190–223).  `np.linalg.pinv` is
the oracle `pinvO`.  Returns the triple `(A_c, S, A_r)` together with
the updated instance (the possibly-extended caches).  The path that
leaves `n_r` unresolved (non-symmetric matrix, no `n_r` given) prints a
usage message in the source and then raises a `TypeError` a few lines
later when `None` is compared/iterated; it is modelled as an error
outcome. -/
def CUR.compute (pinvO : Mat → Mat) (self : CUR) (n_c : ℕ)
    (n_opt : Option ℕ) : Except Unit ((Mat × Mat × Mat) × CUR) :=
  match (if self.fs then some self.A.c
         else if self.symmetric then some (n_opt.getD n_c)
         else n_opt) with
  | none => .error ()
  | some n_r =>
      let st :=
        if self.idx_c.isNone || (!self.fs && self.idx_r.isNone) then
          let p := self.compute_idx n_c n_r
          (p.1, p.2, { self with idx_c := some p.1, idx_r := some p.2 })
        else if (self.idx_c.getD []).length < n_c ||
            (self.idx_r.getD []).length < n_r then
          let p := self.compute_idx n_c n_r
          (p.1, p.2, { self with idx_c := some p.1, idx_r := some p.2 })
        else
          ((self.idx_c.getD []).take n_c, (self.idx_r.getD []).take n_r, self)
      let A_c := self.A.colsAt st.1
      let A_r :=
        if self.symmetric && !self.fs then A_c.transpose
        else if self.fs then self.A.copy
        else self.A.rowsAt st.2.1
      let S := ((pinvO A_c).mul self.A).mul (pinvO A_r)
      .ok ((A_c, S, A_r), st.2.2)

/-- `CUR.loss(n_c, n_r=None)` (lines 233–238): relative Frobenius
reconstruction error `‖A − A_c·S·A_r‖ / ‖A‖`; `np.linalg.norm` is
`rsqrt ∘ frobSq` with `rsqrt` the square-root oracle. -/
def CUR.loss (pinvO : Mat → Mat) (rsqrt : ℚ → ℚ) (self : CUR) (n_c : ℕ)
    (n_opt : Option ℕ) : Except Unit (ℚ × CUR) :=
  match CUR.compute pinvO self n_c n_opt with
  | .error u => .error u
  | .ok (t, self') =>
      .ok (rsqrt ((self.A.sub (t.1.mul (t.2.1.mul t.2.2))).frobSq) /
        rsqrt self.A.frobSq, self')

end CURPy


namespace CURPy

/-! ## Definitions supporting the claim analyses -/

/-- The PCovR covariance exactly as the specification's sentence states
it (refinement-comparison definition, following the spec's words in
§4.3: "C_lr = Csqrt · (Cinv · XᵀY) · (Cinv · XᵀY)ᵀ"); identical to
`get_Ct` except for the placement of `Csqrt` in `C_lr`. -/
def get_Ct_claimed (eigTh : Mat → Except Unit (List (ℚ × (ℕ → ℚ))))
    (rsqrt : ℚ → ℚ) (X Y : Mat) (alpha : ℚ) (regularization : ℚ) :
    Except Unit Mat :=
  let cov := X.transpose.mul X
  match eigTh cov with
  | .error u => .error u
  | .ok pairs =>
      let pairs' := pairs.filter (fun p => regularization < p.1)
      let Csqrt := formUWUt cov.c pairs' rsqrt
      let Cinv := formUWUt cov.c pairs' (fun v => 1 / v)
      let Mlr := Cinv.mul (X.transpose.mul Y)
      let C_lr := Csqrt.mul (Mlr.mul Mlr.transpose)
      .ok ((Mat.smul alpha cov).add (Mat.smul (1 - alpha) C_lr))

/-- The matrix state after replaying the deflation rounds of an
already-computed index list in order. -/
def deflSeq (M : Mat) (l : List ℕ) : Mat := l.foldl deflate M

/-- Trace check for a `svd_select` run: `true` iff in every fresh
selection round the zeroed score vector is strictly positive at the
selected index.  This is the run-level condition under which no
duplicate can be selected; it holds in particular while the working
copy retains positive leverage mass outside the selected set
(`n ≤ rank A` with exact SVD scores). -/
def svdGoChk (k : ℕ) (O : Mat → ℕ → ℕ → ℚ) :
    ℕ → ℕ → Mat → List ℕ → Bool
  | 0, _, _, _ => true
  | fuel + 1, nn, M, idxs =>
      if idxs.length ≤ nn then
        let pz := zeroAt (svdPi k (O M)) idxs
        let j := argmaxUpTo pz M.c
        decide (0 < pz j) &&
          svdGoChk k O fuel (nn + 1) (deflate M ((idxs ++ [j]).getD nn 0))
            (idxs ++ [j])
      else
        svdGoChk k O fuel (nn + 1) (deflate M (idxs.getD nn 0)) idxs

/-- Trace check for a `pcovr_select` run, as for `svdGoChk`; a round in
which covariance construction fails selects nothing, so it imposes no
condition. -/
def pcovrGoChk (eigTh : Mat → Except Unit (List (ℚ × (ℕ → ℚ))))
    (rsqrt : ℚ → ℚ) (eigTop : Mat → ℕ → ℕ → ℚ) (pinvO : Mat → Mat)
    (alpha : ℚ) (k : ℕ) : ℕ → ℕ → Mat → Mat → List ℕ → Bool
  | 0, _, _, _, _ => true
  | fuel + 1, nn, M, Yc, idxs =>
      if idxs.length ≤ nn then
        match get_Ct eigTh rsqrt M Yc alpha (1 / 1000000) with
        | .error _ => true
        | .ok Ct =>
            let pz := zeroAt (pcovrPi k (eigTop Ct)) idxs
            let j := argmaxUpTo pz M.c
            let idxs' := idxs ++ [j]
            let M' := deflate M (idxs'.getD nn 0)
            decide (0 < pz j) &&
              pcovrGoChk eigTh rsqrt eigTop pinvO alpha k fuel (nn + 1) M'
                (update pinvO Yc (M'.colsAt idxs')) idxs'
      else
        let M' := deflate M (idxs.getD nn 0)
        pcovrGoChk eigTh rsqrt eigTop pinvO alpha k fuel (nn + 1) M'
          (update pinvO Yc (M'.colsAt idxs)) idxs

/-- A selection strategy preserves freedom from duplicates: its result
has no duplicate index whenever the resume list (if any) has none. -/
def SelNodup (sel : Mat → ℕ → Option (List ℕ) → List ℕ) : Prop :=
  ∀ (M : Mat) (n : ℕ) (l? : Option (List ℕ)),
    (∀ l, l? = some l → l.Nodup) → (sel M n l?).Nodup

/-- Both cached index lists of a `CUR` instance, when present, contain
no duplicate index. -/
def CachesNodup (self : CUR) : Prop :=
  (∀ l, self.idx_c = some l → l.Nodup) ∧
    (∀ l, self.idx_r = some l → l.Nodup)

/-- A column is identically zero (the embedding keeps matrices clipped,
so this is meaningful for every row index). -/
def colZero (M : Mat) (j : ℕ) : Prop := ∀ t, M.e t j = 0

/-- A selection strategy resumes: on a supplied resume list it returns
that list with new indices appended. -/
def SelExtends (sel : Mat → ℕ → Option (List ℕ) → List ℕ) : Prop :=
  ∀ (M : Mat) (n : ℕ) (l : List ℕ), ∃ new, sel M n (some l) = l ++ new

/-- The second cached value extends the first: whatever list was cached
before is a prefix of what is cached after. -/
def CacheExtends (pre post : Option (List ℕ)) : Prop :=
  ∀ l, pre = some l → ∃ new, post = some (l ++ new)

/-! ### Concrete inputs used by counterexamples and witnesses -/

/-- C1 failing input: square and visibly non-symmetric
(`A = [[0, 1], [2, 0]]`). -/
def cxA1 : Mat :=
  Mat.of 2 2 (fun i j =>
    if i = 0 ∧ j = 1 then 1 else if i = 1 ∧ j = 0 then 2 else 0)

/-- Rank-one matrix `[[1, 0], [0, 0]]`: after one deflation the working
copy is the zero matrix. -/
def A3 : Mat := Mat.of 2 2 (fun i j => if i = 0 ∧ j = 0 then 1 else 0)

/-- SVD oracle answering with the single right singular vector
`(1, 0)`.  On `A3` this is the exact top right singular vector; on the
zero matrix reached after one deflation every unit vector is a valid
singular vector, so the answer satisfies the dependency contract on
every matrix this run consults it at. -/
def O3 : Mat → ℕ → ℕ → ℚ := fun _ i j => if i = 0 ∧ j = 0 then 1 else 0

/-- Diagonal matrix `diag(2, 1)`: full rank, distinct singular
values. -/
def A4 : Mat :=
  Mat.of 2 2 (fun i j =>
    if i = 0 ∧ j = 0 then 2 else if i = 1 ∧ j = 1 then 1 else 0)

/-- Exact top-right-singular-vector oracle for the two matrices an
`svd_select` run on `A4` consults: `(1,0)` for `A4` itself and `(0,1)`
for the deflated `diag(0, 1)`. -/
def O4 : Mat → ℕ → ℕ → ℚ := fun M i j =>
  if M.e 0 0 = 2 then (if i = 0 ∧ j = 0 then 1 else 0)
  else (if i = 0 ∧ j = 1 then 1 else 0)

/-- 1×1 inputs for the `get_Ct` analysis: `X = [[2]]`, `Y = [[1]]`. -/
def X4 : Mat := Mat.of 1 1 (fun _ _ => 2)

/-- See `X4`. -/
def Y4 : Mat := Mat.of 1 1 (fun _ _ => 1)

/-- Exact thresholded eigendecomposition for 1×1 PSD matrices: the one
eigenpair `(M₀₀, (1))`. -/
def eig4 : Mat → Except Unit (List (ℚ × (ℕ → ℚ))) :=
  fun M => .ok [(M.e 0 0, fun t => if t = 0 then 1 else 0)]

/-- Square-root oracle, exact at the one eigenvalue (4) the C4 run
consults it at. -/
def rsqrt4 : ℚ → ℚ := fun q => if q = 4 then 2 else 0

/-- The eigenpair list `eig4` reports for `X4ᵀX4 = [[4]]`. -/
def pairs4 : List (ℚ × (ℕ → ℚ)) :=
  [((X4.transpose.mul X4).e 0 0, fun t => if t = 0 then 1 else 0)]

/-- The amended (code-side) formula for `get_Ct`'s result:
`alpha·cov + (1−alpha)·(Csqrt·Cinv·XᵀY)(Csqrt·Cinv·XᵀY)ᵀ` over the
eigenpairs surviving the floor. -/
def C4form (rsqrt : ℚ → ℚ) (X Y : Mat) (alpha reg : ℚ)
    (pairs : List (ℚ × (ℕ → ℚ))) : Mat :=
  let pairs' := pairs.filter (fun p => reg < p.1)
  let Csqrt := formUWUt X.c pairs' rsqrt
  let Cinv := formUWUt X.c pairs' (fun v => 1 / v)
  let Mlr := Csqrt.mul (Cinv.mul (X.transpose.mul Y))
  (Mat.smul alpha (X.transpose.mul X)).add
    (Mat.smul (1 - alpha) (Mlr.mul Mlr.transpose))

/-- A shape-correct all-zero pseudoinverse oracle (used where the value
is irrelevant). -/
def pinv0 : Mat → Mat := fun M => Mat.of M.c M.r (fun _ _ => 0)

/-- Square matrix `diag(1/1000, 1/2000)`: its feature covariance
`diag(1e-6, 2.5e-7)` has no eigenvalue above the default regularization
floor `1e-6`. -/
def A8 : Mat :=
  Mat.of 2 2 (fun i j =>
    if i = 0 ∧ j = 0 then 1 / 1000
    else if i = 1 ∧ j = 1 then 1 / 2000 else 0)

/-- 2×1 property matrix of ones. -/
def Y8 : Mat := Mat.of 2 1 (fun _ _ => 1)

/-- Thresholded eigendecomposition oracle faithful on diagonal 2×2
matrices at the default floor `1e-6`: when every eigenvalue (diagonal
entry) is at or below the floor it reports rank deficiency, as the
spec prescribes for `sorted_eig`; otherwise it returns the diagonal
eigenpairs. -/
def eig8 : Mat → Except Unit (List (ℚ × (ℕ → ℚ))) := fun M =>
  if M.e 0 0 ≤ 1 / 1000000 ∧ M.e 1 1 ≤ 1 / 1000000 ∧ M.e 0 1 = 0 ∧
      M.e 1 0 = 0 then
    .error ()
  else
    .ok [(M.e 0 0, fun t => if t = 0 then 1 else 0),
      (M.e 1 1, fun t => if t = 1 then 1 else 0)]

/-- Top-eigenvector oracle whose single reported eigenvector is `e₀`
(components `U j 0`). -/
def eigTop8 : Mat → ℕ → ℕ → ℚ := fun _ j i => if i = 0 ∧ j = 0 then 1 else 0

/-- An eigendecomposition oracle that always succeeds (with an empty
pair list; the eigenpairs are irrelevant at `alpha = 1`). -/
def eigOk : Mat → Except Unit (List (ℚ × (ℕ → ℚ))) := fun _ => .ok []

/-- An eigendecomposition oracle that always reports rank deficiency. -/
def eigErr : Mat → Except Unit (List (ℚ × (ℕ → ℚ))) := fun _ => .error ()

/-- C6 failing input: a `CUR` instance over the square matrix `cxA1`
in feature-select mode whose symmetry flag is set (as the buggy
constructor sets it for every square matrix), with the caches the class
itself would hold after a precompute (`idx_c` from the strategy,
`idx_r` the full column range that feature-select mode writes). -/
def cur6 : CUR :=
  { A := cxA1
    symmetric := true
    fs := true
    select := fun _ _ _ => [0]
    idx_c := some [0]
    idx_r := some [0, 1] }

/-! ### Definitions for the loss-monotonicity analysis (claim C7) -/

/-- Frobenius inner product (summed over the first argument's shape). -/
def frobInner (X Y : Mat) : ℚ :=
  ∑ i ∈ Finset.range X.r, ∑ j ∈ Finset.range X.c, X.e i j * Y.e i j

/-- The library contract of `np.linalg.pinv`: `P` is the Moore–Penrose
pseudoinverse of `M` (correct shape, clipped, and the four Penrose
equations). -/
def MPInv (M P : Mat) : Prop :=
  P.r = M.c ∧ P.c = M.r ∧ P.Clipped ∧
    (M.mul P).mul M = M ∧ (P.mul M).mul P = P ∧
    (M.mul P).transpose = M.mul P ∧ (P.mul M).transpose = P.mul M

/-- A symmetric idempotent (an orthogonal projector) of size `n`. -/
def SymIdem (P : Mat) (n : ℕ) : Prop :=
  P.r = n ∧ P.c = n ∧ P.Clipped ∧ P.transpose = P ∧ P.mul P = P

/-- The `k × m` column-inclusion matrix (`m ≤ k`): right-multiplying
selects the first `m` columns. -/
def inclE (k m : ℕ) : Mat :=
  Mat.of k m (fun i j => if i = j then 1 else 0)

/-- The row factor `A_r` exactly as `CUR.compute` builds it from the
mode flags, the column factor and the selected row list. -/
def arMode (self : CUR) (A_c : Mat) (sel_r : List ℕ) : Mat :=
  if self.symmetric && !self.fs then A_c.transpose
  else if self.fs then self.A.copy
  else self.A.rowsAt sel_r

/-- C7 witness input: the 1×1 matrix `[[2]]`. -/
def A7 : Mat := Mat.of 1 1 (fun _ _ => 2)

/-- C7 witness instance: non-symmetric, not feature-select, caches
holding the single index `0`. -/
def cur7 : CUR :=
  { A := A7
    symmetric := false
    fs := false
    select := fun _ _ _ => [0]
    idx_c := some [0]
    idx_r := some [0] }

/-- An exact pseudoinverse oracle for the matrices the C7 witness
uses: the empty `1×0` column block (pseudoinverse the `0×1` zero
matrix) and the `1×1` matrix `[[2]]` (pseudoinverse `[[1/2]]`). -/
def pinvC7 : Mat → Mat := fun M =>
  if M.c = 0 then Mat.of 0 M.r (fun _ _ => 0)
  else Mat.of M.c M.r (fun _ _ => 1 / 2)

end CURPy

namespace CURPy

/-! ## Basic lemmas about `Mat` -/

@[simp] theorem Mat.of_r (r c : ℕ) (f : ℕ → ℕ → ℚ) : (Mat.of r c f).r = r := rfl

@[simp] theorem Mat.of_c (r c : ℕ) (f : ℕ → ℕ → ℚ) : (Mat.of r c f).c = c := rfl

theorem Mat.of_e (r c : ℕ) (f : ℕ → ℕ → ℚ) (i j : ℕ) :
    (Mat.of r c f).e i j = if i < r ∧ j < c then f i j else 0 := rfl

theorem Mat.of_clipped (r c : ℕ) (f : ℕ → ℕ → ℚ) : (Mat.of r c f).Clipped := by
  intro i j h
  simp only [Mat.of]
  simp only [Mat.of_r, Mat.of_c] at h
  exact if_neg h

theorem Mat.ext_of (A B : Mat) (hr : A.r = B.r) (hc : A.c = B.c)
    (he : A.e = B.e) : A = B := by
  cases A; cases B; cases hr; cases hc; cases he; rfl

theorem Mat.eq_of_eqv (A B : Mat) (hA : A.Clipped) (hB : B.Clipped)
    (h : A.eqv B) : A = B := by
  obtain ⟨hr, hc, he⟩ := h
  refine Mat.ext_of A B hr hc ?_
  funext i j
  by_cases hij : i < A.r ∧ j < A.c
  · exact he i hij.1 j hij.2
  · rw [hA i j hij, hB i j (by rw [← hr, ← hc]; exact hij)]

theorem Mat.transpose_clipped (M : Mat) : M.transpose.Clipped := Mat.of_clipped _ _ _

theorem Mat.mul_clipped (A B : Mat) : (A.mul B).Clipped := Mat.of_clipped _ _ _

theorem Mat.sub_clipped (A B : Mat) : (A.sub B).Clipped := Mat.of_clipped _ _ _

theorem Mat.copy_clipped (M : Mat) : M.copy.Clipped := Mat.of_clipped _ _ _

@[simp] theorem Mat.mul_r (A B : Mat) : (A.mul B).r = A.r := rfl

@[simp] theorem Mat.mul_c (A B : Mat) : (A.mul B).c = B.c := rfl

@[simp] theorem Mat.sub_r (A B : Mat) : (A.sub B).r = A.r := rfl

@[simp] theorem Mat.sub_c (A B : Mat) : (A.sub B).c = A.c := rfl

@[simp] theorem Mat.transpose_r (M : Mat) : M.transpose.r = M.c := rfl

@[simp] theorem Mat.transpose_c (M : Mat) : M.transpose.c = M.r := rfl

@[simp] theorem Mat.copy_r (M : Mat) : M.copy.r = M.r := rfl

@[simp] theorem Mat.copy_c (M : Mat) : M.copy.c = M.c := rfl

theorem Mat.copy_e (M : Mat) (i j : ℕ) (hi : i < M.r) (hj : j < M.c) :
    M.copy.e i j = M.e i j := by
  simp [Mat.copy, Mat.of_e, hi, hj]

end CURPy

namespace CURPy

/-! ## Entry lemmas and algebraic facts -/

theorem Mat.mul_e (A B : Mat) (i j : ℕ) (hi : i < A.r) (hj : j < B.c) :
    (A.mul B).e i j = ∑ t ∈ Finset.range A.c, A.e i t * B.e t j := by
  simp [Mat.mul, Mat.of_e, hi, hj]

theorem Mat.transpose_e (M : Mat) (i j : ℕ) (hi : i < M.c) (hj : j < M.r) :
    M.transpose.e i j = M.e j i := by
  simp [Mat.transpose, Mat.of_e, hi, hj]

theorem Mat.sub_e (A B : Mat) (i j : ℕ) (hi : i < A.r) (hj : j < A.c) :
    (A.sub B).e i j = A.e i j - B.e i j := by
  simp [Mat.sub, Mat.of_e, hi, hj]

theorem Mat.add_e (A B : Mat) (i j : ℕ) (hi : i < A.r) (hj : j < A.c) :
    (A.add B).e i j = A.e i j + B.e i j := by
  simp [Mat.add, Mat.of_e, hi, hj]

theorem Mat.smul_e (q : ℚ) (A : Mat) (i j : ℕ) (hi : i < A.r) (hj : j < A.c) :
    (Mat.smul q A).e i j = q * A.e i j := by
  simp [Mat.smul, Mat.of_e, hi, hj]

theorem Mat.colsAt_e (M : Mat) (l : List ℕ) (i k : ℕ) (hi : i < M.r)
    (hk : k < l.length) : (M.colsAt l).e i k = M.e i (l.getD k 0) := by
  simp [Mat.colsAt, Mat.of_e, hi, hk]

/-- Associativity of the model's matrix product; the middle factor must
be clipped (numpy only multiplies conformable matrices, for which this
always holds). -/
theorem Mat.mul_assoc (A B C : Mat) (hB : B.Clipped) :
    (A.mul B).mul C = A.mul (B.mul C) := by
  refine Mat.ext_of _ _ rfl rfl ?_
  funext i j
  by_cases hij : i < A.r ∧ j < C.c
  · obtain ⟨hi, hj⟩ := hij
    have hl : ((A.mul B).mul C).e i j =
        ∑ t ∈ Finset.range B.c, (A.mul B).e i t * C.e t j :=
      Mat.mul_e (A.mul B) C i j hi hj
    have hr : (A.mul (B.mul C)).e i j =
        ∑ u ∈ Finset.range A.c, A.e i u * (B.mul C).e u j :=
      Mat.mul_e A (B.mul C) i j hi hj
    rw [hl, hr]
    have hstep : ∀ t ∈ Finset.range B.c,
        (A.mul B).e i t * C.e t j =
          ∑ u ∈ Finset.range A.c, A.e i u * B.e u t * C.e t j := by
      intro t ht
      rw [Mat.mul_e A B i t hi (Finset.mem_range.mp ht), Finset.sum_mul]
    have hstep2 : ∀ u ∈ Finset.range A.c,
        A.e i u * (B.mul C).e u j =
          ∑ t ∈ Finset.range B.c, A.e i u * (B.e u t * C.e t j) := by
      intro u hu
      by_cases hu' : u < B.r
      · rw [Mat.mul_e B C u j hu' hj, Finset.mul_sum]
      · have hz : ∀ t, B.e u t = 0 := by
          intro t
          exact hB u t (fun h => hu' h.1)
        have : (B.mul C).e u j = 0 := by
          simp only [Mat.mul, Mat.of_e]
          by_cases hcase : u < B.r ∧ j < C.c
          · exact absurd hcase.1 hu'
          · simp [hcase]
        simp [this, hz]
    rw [Finset.sum_congr rfl hstep, Finset.sum_congr rfl hstep2,
      Finset.sum_comm]
    refine Finset.sum_congr rfl fun u _ => Finset.sum_congr rfl fun t _ => ?_
    ring
  · have h1 : ((A.mul B).mul C).e i j = 0 := by
      refine Mat.mul_clipped _ _ i j ?_
      simpa using hij
    have h2 : (A.mul (B.mul C)).e i j = 0 := by
      refine Mat.mul_clipped _ _ i j ?_
      simpa using hij
    rw [h1, h2]

end CURPy

namespace CURPy

/-! ## Claim C1: the constructor's symmetry flag -/

/-- **C1.**  The claim states that the constructor sets `symmetric` to
true iff `A` is square and every entry of `|A − Aᵀ|` is below the
tolerance.  The code (CUR.py lines 156–157) instead applies `np.all` to
the bare `|A − Aᵀ|` and compares the resulting boolean with the
tolerance, so for the square non-symmetric matrix `[[0,1],[2,0]]` with
the default tolerance `1e-4` the flag is `true` even though `|A − Aᵀ|`
has entries `≥` the tolerance: the entrywise tolerance test required by
the claim fails while the code's flag is set. -/
theorem C1_symmetric_flag_bug :
    symmetricFlag cxA1 (1 / 10000) = true ∧
      ¬(∀ i < cxA1.r, ∀ j < cxA1.c,
          |cxA1.e i j - cxA1.transpose.e i j| < (1 / 10000 : ℚ)) := by
  have hall : npAllNonzero ((cxA1.sub cxA1.transpose).absM) = false := by
    simp only [npAllNonzero, decide_eq_false_iff_not]
    intro h
    have h00 := h 0 (by norm_num [cxA1, Mat.of, Mat.sub, Mat.absM]) 0
      (by norm_num [cxA1, Mat.of, Mat.sub, Mat.absM])
    norm_num [cxA1, Mat.of, Mat.sub, Mat.absM, Mat.transpose] at h00
  constructor
  · rw [symmetricFlag, hall]
    norm_num [cxA1, Mat.of, Mat.transpose]
  · intro h
    have h01 := h 0 (by norm_num [cxA1, Mat.of]) 1 (by norm_num [cxA1, Mat.of])
    norm_num [cxA1, Mat.of, Mat.transpose] at h01

/-! ## Claim C9: the property updater -/

/-- **C9.**  `update` replaces `Y` by `Y − H·Y` where
`H = X_c · (pinv(X_cᵀ·X_c) · X_cᵀ)` is the ordinary-least-squares
projector onto the span of the selected columns.  The code computes `H`
as `(X_c · pinv(X_cᵀX_c)) · X_cᵀ`; the two groupings agree because the
pseudoinverse returned by the library is a (clipped) `X_c.c × X_c.c`
matrix. -/
theorem C9_update_ols_residual (pinvO : Mat → Mat) (Y_copy X_c : Mat)
    (hcl : (pinvO (X_c.transpose.mul X_c)).Clipped) :
    update pinvO Y_copy X_c =
      Y_copy.sub
        ((X_c.mul ((pinvO (X_c.transpose.mul X_c)).mul X_c.transpose)).mul
          Y_copy) := by
  simp only [update]
  rw [Mat.mul_assoc X_c (pinvO (X_c.transpose.mul X_c)) X_c.transpose hcl]

/-- Witness for C9 at a concrete input: the all-zero shape-correct
pseudoinverse oracle and the matrices `Y4`, `A4`. -/
theorem C9_update_ols_residual_witness :
    update pinv0 Y4 A4 =
      Y4.sub
        ((A4.mul ((pinv0 (A4.transpose.mul A4)).mul A4.transpose)).mul
          Y4) :=
  C9_update_ols_residual pinv0 Y4 A4 (Mat.of_clipped _ _ _)

end CURPy

namespace CURPy

/-! ## Append-only evolution of the index lists -/

theorem svdGo_extends (k : ℕ) (O : Mat → ℕ → ℕ → ℚ) :
    ∀ (fuel nn : ℕ) (M : Mat) (idxs : List ℕ),
      ∃ new, (svdGo k O fuel nn M idxs).2 = idxs ++ new := by
  intro fuel
  induction fuel with
  | zero =>
      intro nn M idxs
      exact ⟨[], by simp [svdGo]⟩
  | succ f ih =>
      intro nn M idxs
      by_cases h : idxs.length ≤ nn
      · obtain ⟨new, hnew⟩ :=
          ih (nn + 1)
            (deflate M
              ((idxs ++ [argmaxUpTo (zeroAt (svdPi k (O M)) idxs) M.c]).getD nn 0))
            (idxs ++ [argmaxUpTo (zeroAt (svdPi k (O M)) idxs) M.c])
        refine ⟨[argmaxUpTo (zeroAt (svdPi k (O M)) idxs) M.c] ++ new, ?_⟩
        simp only [svdGo, if_pos h]
        rw [hnew, List.append_assoc]
      · obtain ⟨new, hnew⟩ := ih (nn + 1) (deflate M (idxs.getD nn 0)) idxs
        exact ⟨new, by simp only [svdGo, if_neg h]; exact hnew⟩

theorem pcovrGo_extends (eigTh : Mat → Except Unit (List (ℚ × (ℕ → ℚ))))
    (rsqrt : ℚ → ℚ) (eigTop : Mat → ℕ → ℕ → ℚ) (pinvO : Mat → Mat)
    (alpha : ℚ) (k : ℕ) :
    ∀ (fuel nn : ℕ) (M Yc : Mat) (idxs : List ℕ),
      ∃ new,
        (pcovrGo eigTh rsqrt eigTop pinvO alpha k fuel nn M Yc idxs).2.2 =
          idxs ++ new := by
  intro fuel
  induction fuel with
  | zero =>
      intro nn M Yc idxs
      exact ⟨[], by simp [pcovrGo]⟩
  | succ f ih =>
      intro nn M Yc idxs
      by_cases h : idxs.length ≤ nn
      · rcases hct : get_Ct eigTh rsqrt M Yc alpha (1 / 1000000) with u | Ct
        · exact ⟨[], by simp only [pcovrGo, if_pos h, hct, List.append_nil]⟩
        · obtain ⟨new, hnew⟩ := ih (nn + 1)
            (deflate M
              ((idxs ++ [argmaxUpTo (zeroAt (pcovrPi k (eigTop Ct)) idxs) M.c]).getD
                nn 0))
            (update pinvO Yc
              ((deflate M
                  ((idxs ++
                      [argmaxUpTo (zeroAt (pcovrPi k (eigTop Ct)) idxs) M.c]).getD
                    nn 0)).colsAt
                (idxs ++ [argmaxUpTo (zeroAt (pcovrPi k (eigTop Ct)) idxs) M.c])))
            (idxs ++ [argmaxUpTo (zeroAt (pcovrPi k (eigTop Ct)) idxs) M.c])
          refine ⟨[argmaxUpTo (zeroAt (pcovrPi k (eigTop Ct)) idxs) M.c] ++ new, ?_⟩
          have hstep :
              (pcovrGo eigTh rsqrt eigTop pinvO alpha k (f + 1) nn M Yc idxs).2.2 =
              (pcovrGo eigTh rsqrt eigTop pinvO alpha k f (nn + 1)
                (deflate M
                  ((idxs ++
                      [argmaxUpTo (zeroAt (pcovrPi k (eigTop Ct)) idxs) M.c]).getD
                    nn 0))
                (update pinvO Yc
                  ((deflate M
                      ((idxs ++
                          [argmaxUpTo (zeroAt (pcovrPi k (eigTop Ct)) idxs)
                            M.c]).getD
                        nn 0)).colsAt
                    (idxs ++ [argmaxUpTo (zeroAt (pcovrPi k (eigTop Ct)) idxs) M.c])))
                (idxs ++ [argmaxUpTo (zeroAt (pcovrPi k (eigTop Ct)) idxs) M.c])).2.2 := by
            simp only [pcovrGo, if_pos h, hct]
          rw [hstep, hnew, List.append_assoc]
      · obtain ⟨new, hnew⟩ := ih (nn + 1) (deflate M (idxs.getD nn 0))
          (update pinvO Yc ((deflate M (idxs.getD nn 0)).colsAt idxs)) idxs
        exact ⟨new, by simp only [pcovrGo, if_neg h]; exact hnew⟩

/-- **C10.**  For every call of `svd_select` or `pcovr_select` with a
caller-supplied resume list, the caller's list value after the call is
the original list with each newly selected index appended (the model
returns exactly the final value of the aliased list, which `list(idxs)`
copies).  The matrix arguments are read only through the `A.copy()` /
`Y.copy()` working copies taken on entry, so their values are
unchanged — in the embedding this is structural: the functions receive
the matrices by value and deflate only the copies. -/
theorem C10_caller_idxs_append_only :
    (∀ (O : Mat → ℕ → ℕ → ℚ) (A : Mat) (n k : ℕ) (l₀ : List ℕ),
        ∃ new, svd_select O A n k (some l₀) = l₀ ++ new) ∧
      (∀ (eigTh : Mat → Except Unit (List (ℚ × (ℕ → ℚ)))) (rsqrt : ℚ → ℚ)
          (eigTop : Mat → ℕ → ℕ → ℚ) (pinvO : Mat → Mat) (A : Mat) (n : ℕ)
          (Y : Mat) (alpha : ℚ) (k : ℕ) (l₀ : List ℕ),
        ∃ new,
          pcovr_select eigTh rsqrt eigTop pinvO A n Y alpha k (some l₀) =
            l₀ ++ new) := by
  constructor
  · intro O A n k l₀
    exact svdGo_extends k O n 0 A.copy l₀
  · intro eigTh rsqrt eigTop pinvO A n Y alpha k l₀
    exact pcovrGo_extends eigTh rsqrt eigTop pinvO alpha k n 0 A.copy Y.copy l₀

end CURPy

namespace CURPy

/-! ## Early termination of `pcovr_select` on covariance failure -/

theorem get_Ct_error_iff (eigTh : Mat → Except Unit (List (ℚ × (ℕ → ℚ))))
    (rsqrt : ℚ → ℚ) (X Y : Mat) (alpha reg : ℚ) :
    get_Ct eigTh rsqrt X Y alpha reg = .error () ↔
      eigTh (X.transpose.mul X) = .error () := by
  unfold get_Ct
  rcases h : eigTh (X.transpose.mul X) with u | ps <;> simp [h]

theorem pcovrGo_error_stops (eigTh : Mat → Except Unit (List (ℚ × (ℕ → ℚ))))
    (rsqrt : ℚ → ℚ) (eigTop : Mat → ℕ → ℕ → ℚ) (pinvO : Mat → Mat)
    (alpha : ℚ) (k fuel nn : ℕ) (M Yc : Mat) (idxs : List ℕ)
    (hfresh : idxs.length ≤ nn)
    (herr : get_Ct eigTh rsqrt M Yc alpha (1 / 1000000) = .error ()) :
    pcovrGo eigTh rsqrt eigTop pinvO alpha k (fuel + 1) nn M Yc idxs =
      (M, Yc, idxs) := by
  simp only [pcovrGo, if_pos hfresh, herr]

theorem pcovrGo_replay (eigTh : Mat → Except Unit (List (ℚ × (ℕ → ℚ))))
    (rsqrt : ℚ → ℚ) (eigTop : Mat → ℕ → ℕ → ℚ) (pinvO : Mat → Mat)
    (alpha : ℚ) (k : ℕ) :
    ∀ (d fuel nn : ℕ) (M Yc : Mat) (idxs : List ℕ),
      nn + d ≤ idxs.length → d ≤ fuel →
      ∃ Yc', pcovrGo eigTh rsqrt eigTop pinvO alpha k fuel nn M Yc idxs =
        pcovrGo eigTh rsqrt eigTop pinvO alpha k (fuel - d) (nn + d)
          (deflSeq M ((idxs.drop nn).take d)) Yc' idxs := by
  intro d
  induction d with
  | zero =>
      intro fuel nn M Yc idxs _ _
      exact ⟨Yc, by simp [deflSeq]⟩
  | succ d ih =>
      intro fuel nn M Yc idxs hlen hfuel
      obtain ⟨f, rfl⟩ : ∃ f, fuel = f + 1 :=
        ⟨fuel - 1, by omega⟩
      have hnn : nn < idxs.length := by omega
      have hnotfresh : ¬ idxs.length ≤ nn := by omega
      have hstep :
          pcovrGo eigTh rsqrt eigTop pinvO alpha k (f + 1) nn M Yc idxs =
            pcovrGo eigTh rsqrt eigTop pinvO alpha k f (nn + 1)
              (deflate M (idxs.getD nn 0))
              (update pinvO Yc ((deflate M (idxs.getD nn 0)).colsAt idxs))
              idxs := by
        simp only [pcovrGo, if_neg hnotfresh]
      obtain ⟨Yc', hYc'⟩ := ih f (nn + 1) (deflate M (idxs.getD nn 0))
        (update pinvO Yc ((deflate M (idxs.getD nn 0)).colsAt idxs)) idxs
        (by omega) (by omega)
      refine ⟨Yc', ?_⟩
      rw [hstep, hYc']
      have hdrop : (idxs.drop nn).take (d + 1) =
          idxs.getD nn 0 :: ((idxs.drop (nn + 1)).take d) := by
        rw [List.drop_eq_getElem_cons hnn, List.take_succ_cons,
          List.getD_eq_getElem idxs 0 hnn]
      rw [hdrop]
      have : deflSeq M (idxs.getD nn 0 :: (idxs.drop (nn + 1)).take d) =
          deflSeq (deflate M (idxs.getD nn 0)) ((idxs.drop (nn + 1)).take d) := by
        simp [deflSeq]
      rw [this]
      have h1 : f + 1 - (d + 1) = f - d := by omega
      have h2 : nn + (d + 1) = nn + 1 + d := by omega
      rw [h1, h2]

/-- **C5.**  If covariance construction fails in a (fresh) round of
`pcovr_select`, the loop selects no further indices and returns exactly
the indices gathered so far, with no exception reaching the caller
(first clause: from any loop state whose next round is fresh and whose
covariance construction fails, the state is returned unchanged).  In
particular (second clause), a request for `n` indices resumed from `l`
with `l.length < n` whose covariance fails at the first fresh round
returns exactly `l` — fewer than `n` indices. -/
theorem C5_rank_deficiency_early_return :
    (∀ (eigTh : Mat → Except Unit (List (ℚ × (ℕ → ℚ)))) (rsqrt : ℚ → ℚ)
        (eigTop : Mat → ℕ → ℕ → ℚ) (pinvO : Mat → Mat) (alpha : ℚ)
        (k fuel nn : ℕ) (M Yc : Mat) (idxs : List ℕ),
      idxs.length ≤ nn →
      get_Ct eigTh rsqrt M Yc alpha (1 / 1000000) = .error () →
      pcovrGo eigTh rsqrt eigTop pinvO alpha k (fuel + 1) nn M Yc idxs =
        (M, Yc, idxs)) ∧
    (∀ (eigTh : Mat → Except Unit (List (ℚ × (ℕ → ℚ)))) (rsqrt : ℚ → ℚ)
        (eigTop : Mat → ℕ → ℕ → ℚ) (pinvO : Mat → Mat) (A Y : Mat)
        (alpha : ℚ) (k n : ℕ) (l : List ℕ),
      l.length < n →
      eigTh ((deflSeq A.copy l).transpose.mul (deflSeq A.copy l)) =
        .error () →
      pcovr_select eigTh rsqrt eigTop pinvO A n Y alpha k (some l) = l ∧
        (pcovr_select eigTh rsqrt eigTop pinvO A n Y alpha k (some l)).length <
          n) := by
  constructor
  · intro eigTh rsqrt eigTop pinvO alpha k fuel nn M Yc idxs hfresh herr
    exact pcovrGo_error_stops eigTh rsqrt eigTop pinvO alpha k fuel nn M Yc
      idxs hfresh herr
  · intro eigTh rsqrt eigTop pinvO A Y alpha k n l hlen herr
    have hmain :
        pcovr_select eigTh rsqrt eigTop pinvO A n Y alpha k (some l) = l := by
      unfold pcovr_select
      obtain ⟨Yc', hYc'⟩ := pcovrGo_replay eigTh rsqrt eigTop pinvO alpha k
        l.length n 0 A.copy Y.copy l (by omega) (by omega)
      simp only [Option.getD_some] at hYc' ⊢
      rw [hYc']
      obtain ⟨m, hm⟩ : ∃ m, n - l.length = m + 1 := ⟨n - l.length - 1, by omega⟩
      have htake : (l.drop 0).take l.length = l := by simp
      rw [hm, htake]
      rw [pcovrGo_error_stops eigTh rsqrt eigTop pinvO alpha k m (0 + l.length)
        (deflSeq A.copy l) Yc' l (by omega)
        ((get_Ct_error_iff eigTh rsqrt (deflSeq A.copy l) Yc' alpha
          (1 / 1000000)).mpr herr)]
    exact ⟨hmain, by rw [hmain]; exact hlen⟩

/-- Witness for C5 at a concrete input: the always-failing
eigendecomposition oracle, `A = A3`, `Y = Y4`, resume list `[0]` and a
request for 2 indices. -/
theorem C5_rank_deficiency_early_return_witness :
    pcovr_select eigErr rsqrt4 O3 pinv0 A3 2 Y4 (1 / 2) 1 (some [0]) = [0] ∧
      (pcovr_select eigErr rsqrt4 O3 pinv0 A3 2 Y4 (1 / 2) 1 (some [0])).length <
        2 :=
  C5_rank_deficiency_early_return.2 eigErr rsqrt4 O3 pinv0 A3 Y4 (1 / 2) 1 2 [0]
    (by norm_num) rfl

end CURPy

namespace CURPy

/-! ## Claim C4: the blended covariance of `get_Ct` -/

/-- `1·A + (1−1)·B` is entrywise `A` (the `alpha = 1` degeneration of
the blend in `get_Ct`). -/
theorem smul_blend_one_eqv (A B : Mat) :
    ((Mat.smul 1 A).add (Mat.smul (1 - 1) B)).eqv A := by
  refine ⟨rfl, rfl, ?_⟩
  intro i hi j hj
  have hi' : i < A.r := hi
  have hj' : j < A.c := hj
  simp [Mat.add, Mat.smul, Mat.of_e, hi', hj']

/-- **C4 counterexample.**  The claim's formula
`C_lr = Csqrt · (Cinv·XᵀY) · (Cinv·XᵀY)ᵀ` (embodied in
`get_Ct_claimed`) disagrees with the code, which computes
`C_lr = (Csqrt·Cinv·XᵀY) · (Csqrt·Cinv·XᵀY)ᵀ`: on the 1×1 input
`X = [[2]]`, `Y = [[1]]`, `alpha = 0` — with the exact eigendecomposition
`[[4]] ↦ (4, (1))` and `√4 = 2` — the code's result has entry `1` where
the claimed formula gives `1/2`. -/
theorem C4_counterexample_Clr_grouping :
    (get_Ct eig4 rsqrt4 X4 Y4 0 (1 / 1000000)).map (fun M => M.e 0 0) =
        .ok 1 ∧
      (get_Ct_claimed eig4 rsqrt4 X4 Y4 0 (1 / 1000000)).map
          (fun M => M.e 0 0) = .ok (1 / 2) := by
  constructor
  · norm_num [get_Ct, eig4, rsqrt4, X4, Y4, formUWUt, Mat.mul, Mat.transpose,
      Mat.of, Mat.smul, Mat.add, List.filter, Finset.sum_range_succ,
      Except.map]
  · norm_num [get_Ct_claimed, eig4, rsqrt4, X4, Y4, formUWUt, Mat.mul,
      Mat.transpose, Mat.of, Mat.smul, Mat.add, List.filter,
      Finset.sum_range_succ, Except.map]

/-- **C4 (amended).**  For every input on which the eigendecomposition
succeeds, `get_Ct` returns
`C = alpha·cov + (1−alpha)·C_lr` with
`C_lr = (Csqrt·Cinv·XᵀY)·(Csqrt·Cinv·XᵀY)ᵀ` built from the eigenpairs
surviving the regularization floor (the symmetrized form: `Csqrt`
multiplies the factor, not the outer product; this is `C4form`); and
for `alpha = 1` the result equals the plain covariance `XᵀX`
exactly. -/
theorem C4_get_Ct_amended (eigTh : Mat → Except Unit (List (ℚ × (ℕ → ℚ))))
    (rsqrt : ℚ → ℚ) (X Y : Mat) (alpha reg : ℚ)
    (pairs : List (ℚ × (ℕ → ℚ)))
    (hok : eigTh (X.transpose.mul X) = .ok pairs) :
    get_Ct eigTh rsqrt X Y alpha reg =
        .ok (C4form rsqrt X Y alpha reg pairs) ∧
      (alpha = 1 → ∀ C, get_Ct eigTh rsqrt X Y alpha reg = .ok C →
        C.eqv (X.transpose.mul X)) := by
  have hform : get_Ct eigTh rsqrt X Y alpha reg =
      .ok (C4form rsqrt X Y alpha reg pairs) := by
    simp only [get_Ct, C4form]
    rw [hok]
    rfl
  refine ⟨hform, ?_⟩
  rintro rfl C hC
  rw [hform] at hC
  injection hC with hC
  subst hC
  simp only [C4form]
  exact smul_blend_one_eqv (X.transpose.mul X) _

/-- Witness for C4 (amended) at the concrete input `(X4, Y4)`,
`alpha = 1`: both that the returned matrix has the amended shape and
(by the second clause applied to it) that it is entrywise the plain
covariance. -/
theorem C4_get_Ct_amended_witness :
    get_Ct eig4 rsqrt4 X4 Y4 1 (1 / 1000000) =
      .ok (C4form rsqrt4 X4 Y4 1 (1 / 1000000) pairs4) :=
  (C4_get_Ct_amended eig4 rsqrt4 X4 Y4 1 (1 / 1000000) pairs4 rfl).1

end CURPy

namespace CURPy

/-! ## Single-step unfolding lemmas for the selection loops -/

theorem svdGo_step (k : ℕ) (O : Mat → ℕ → ℕ → ℚ) (f nn : ℕ) (M : Mat)
    (idxs : List ℕ) (hb : idxs.length ≤ nn) :
    svdGo k O (f + 1) nn M idxs =
      svdGo k O f (nn + 1)
        (deflate M
          ((idxs ++ [argmaxUpTo (zeroAt (svdPi k (O M)) idxs) M.c]).getD nn 0))
        (idxs ++ [argmaxUpTo (zeroAt (svdPi k (O M)) idxs) M.c]) := by
  simp only [svdGo, if_pos hb]

theorem svdGo_step_replay (k : ℕ) (O : Mat → ℕ → ℕ → ℚ) (f nn : ℕ) (M : Mat)
    (idxs : List ℕ) (hb : ¬ idxs.length ≤ nn) :
    svdGo k O (f + 1) nn M idxs =
      svdGo k O f (nn + 1) (deflate M (idxs.getD nn 0)) idxs := by
  simp only [svdGo, if_neg hb]

theorem pcovrGo_step_ok (eigTh : Mat → Except Unit (List (ℚ × (ℕ → ℚ))))
    (rsqrt : ℚ → ℚ) (eigTop : Mat → ℕ → ℕ → ℚ) (pinvO : Mat → Mat)
    (alpha : ℚ) (k f nn : ℕ) (M Yc Ct : Mat) (idxs : List ℕ)
    (hb : idxs.length ≤ nn)
    (hct : get_Ct eigTh rsqrt M Yc alpha (1 / 1000000) = .ok Ct) :
    pcovrGo eigTh rsqrt eigTop pinvO alpha k (f + 1) nn M Yc idxs =
      pcovrGo eigTh rsqrt eigTop pinvO alpha k f (nn + 1)
        (deflate M
          ((idxs ++ [argmaxUpTo (zeroAt (pcovrPi k (eigTop Ct)) idxs) M.c]).getD
            nn 0))
        (update pinvO Yc
          ((deflate M
              ((idxs ++
                  [argmaxUpTo (zeroAt (pcovrPi k (eigTop Ct)) idxs) M.c]).getD
                nn 0)).colsAt
            (idxs ++ [argmaxUpTo (zeroAt (pcovrPi k (eigTop Ct)) idxs) M.c])))
        (idxs ++ [argmaxUpTo (zeroAt (pcovrPi k (eigTop Ct)) idxs) M.c]) := by
  simp only [pcovrGo, if_pos hb, hct]

theorem pcovrGo_step_replay (eigTh : Mat → Except Unit (List (ℚ × (ℕ → ℚ))))
    (rsqrt : ℚ → ℚ) (eigTop : Mat → ℕ → ℕ → ℚ) (pinvO : Mat → Mat)
    (alpha : ℚ) (k f nn : ℕ) (M Yc : Mat) (idxs : List ℕ)
    (hb : ¬ idxs.length ≤ nn) :
    pcovrGo eigTh rsqrt eigTop pinvO alpha k (f + 1) nn M Yc idxs =
      pcovrGo eigTh rsqrt eigTop pinvO alpha k f (nn + 1)
        (deflate M (idxs.getD nn 0))
        (update pinvO Yc ((deflate M (idxs.getD nn 0)).colsAt idxs)) idxs := by
  simp only [pcovrGo, if_neg hb]

/-! ## Claim C3: duplicate selection -/

theorem zeroAt_pos_not_mem (pi : ℕ → ℚ) (idxs : List ℕ) (j : ℕ)
    (h : 0 < zeroAt pi idxs j) : j ∉ idxs := by
  intro hmem
  rw [zeroAt, if_pos hmem] at h
  exact lt_irrefl 0 h

theorem nodup_append_single (idxs : List ℕ) (j : ℕ) (h : idxs.Nodup)
    (hj : j ∉ idxs) : (idxs ++ [j]).Nodup := by
  rw [List.nodup_append]
  refine ⟨h, List.nodup_singleton j, ?_⟩
  intro a ha hb
  simp only [List.mem_singleton] at hb
  subst hb
  exact hj ha

theorem svdGoChk_nodup (k : ℕ) (O : Mat → ℕ → ℕ → ℚ) :
    ∀ (fuel nn : ℕ) (M : Mat) (idxs : List ℕ), idxs.Nodup →
      svdGoChk k O fuel nn M idxs = true → (svdGo k O fuel nn M idxs).2.Nodup := by
  intro fuel
  induction fuel with
  | zero =>
      intro nn M idxs h _
      simpa [svdGo] using h
  | succ f ih =>
      intro nn M idxs h hchk
      by_cases hb : idxs.length ≤ nn
      · simp only [svdGoChk, if_pos hb, Bool.and_eq_true, decide_eq_true_eq]
          at hchk
        obtain ⟨hpos, hrest⟩ := hchk
        have hfresh : argmaxUpTo (zeroAt (svdPi k (O M)) idxs) M.c ∉ idxs :=
          zeroAt_pos_not_mem _ _ _ hpos
        have hnd : (idxs ++ [argmaxUpTo (zeroAt (svdPi k (O M)) idxs) M.c]).Nodup :=
          nodup_append_single _ _ h hfresh
        have := ih (nn + 1)
          (deflate M
            ((idxs ++ [argmaxUpTo (zeroAt (svdPi k (O M)) idxs) M.c]).getD nn 0))
          (idxs ++ [argmaxUpTo (zeroAt (svdPi k (O M)) idxs) M.c]) hnd hrest
        simpa [svdGo, if_pos hb] using this
      · simp only [svdGoChk, if_neg hb] at hchk
        have := ih (nn + 1) (deflate M (idxs.getD nn 0)) idxs h hchk
        simpa [svdGo, if_neg hb] using this

theorem pcovrGoChk_nodup (eigTh : Mat → Except Unit (List (ℚ × (ℕ → ℚ))))
    (rsqrt : ℚ → ℚ) (eigTop : Mat → ℕ → ℕ → ℚ) (pinvO : Mat → Mat)
    (alpha : ℚ) (k : ℕ) :
    ∀ (fuel nn : ℕ) (M Yc : Mat) (idxs : List ℕ), idxs.Nodup →
      pcovrGoChk eigTh rsqrt eigTop pinvO alpha k fuel nn M Yc idxs = true →
      (pcovrGo eigTh rsqrt eigTop pinvO alpha k fuel nn M Yc idxs).2.2.Nodup := by
  intro fuel
  induction fuel with
  | zero =>
      intro nn M Yc idxs h _
      simpa [pcovrGo] using h
  | succ f ih =>
      intro nn M Yc idxs h hchk
      by_cases hb : idxs.length ≤ nn
      · rcases hct : get_Ct eigTh rsqrt M Yc alpha (1 / 1000000) with u | Ct
        · cases u
          rw [pcovrGo_error_stops eigTh rsqrt eigTop pinvO alpha k f nn M Yc
            idxs hb hct]
          exact h
        · simp only [pcovrGoChk, if_pos hb, hct, Bool.and_eq_true,
            decide_eq_true_eq] at hchk
          obtain ⟨hpos, hrest⟩ := hchk
          have hfresh :
              argmaxUpTo (zeroAt (pcovrPi k (eigTop Ct)) idxs) M.c ∉ idxs :=
            zeroAt_pos_not_mem _ _ _ hpos
          have hnd :
              (idxs ++
                [argmaxUpTo (zeroAt (pcovrPi k (eigTop Ct)) idxs) M.c]).Nodup :=
            nodup_append_single _ _ h hfresh
          have := ih (nn + 1)
            (deflate M
              ((idxs ++
                  [argmaxUpTo (zeroAt (pcovrPi k (eigTop Ct)) idxs) M.c]).getD
                nn 0))
            (update pinvO Yc
              ((deflate M
                  ((idxs ++
                      [argmaxUpTo (zeroAt (pcovrPi k (eigTop Ct)) idxs)
                        M.c]).getD
                    nn 0)).colsAt
                (idxs ++ [argmaxUpTo (zeroAt (pcovrPi k (eigTop Ct)) idxs) M.c])))
            (idxs ++ [argmaxUpTo (zeroAt (pcovrPi k (eigTop Ct)) idxs) M.c])
            hnd hrest
          rw [pcovrGo_step_ok eigTh rsqrt eigTop pinvO alpha k f nn M Yc Ct
            idxs hb hct]
          exact this
      · simp only [pcovrGoChk, if_neg hb] at hchk
        have := ih (nn + 1) (deflate M (idxs.getD nn 0))
          (update pinvO Yc ((deflate M (idxs.getD nn 0)).colsAt idxs)) idxs h hchk
        rw [pcovrGo_step_replay eigTh rsqrt eigTop pinvO alpha k f nn M Yc idxs
          hb]
        exact this

theorem compute_idx_nodup (self : CUR) (n_c n_r : ℕ)
    (hsel : SelNodup self.select) (hc : CachesNodup self) :
    (self.compute_idx n_c n_r).1.Nodup ∧ (self.compute_idx n_c n_r).2.Nodup := by
  unfold CUR.compute_idx
  refine ⟨hsel self.A n_c self.idx_c hc.1, ?_⟩
  by_cases hfs : self.fs = true
  · simp [hfs, List.nodup_range]
  · by_cases hsym : self.symmetric = true
    · simp only [Bool.not_eq_true] at hfs
      simp [hfs, hsym]
      exact hsel self.A n_c self.idx_c hc.1
    · simp only [Bool.not_eq_true] at hfs hsym
      simp [hfs, hsym]
      exact hsel self.A.transpose n_r self.idx_r hc.2

end CURPy

namespace CURPy

/-- **C3 counterexample.**  `svd_select` can return a duplicated index:
on `A3 = [[1,0],[0,0]]` with `n = 2`, `k = 1` and an SVD oracle that is
exact on `A3` (top right singular vector `(1,0)`; after the first
deflation the working copy is the zero matrix, on which every unit
vector is a valid singular vector, so the constant answer satisfies the
dependency contract throughout), the zeroed score vector of round 1 is
identically zero and `argmax` falls back to index 0, which is selected
a second time. -/
theorem C3_counterexample_duplicate_index :
    svd_select O3 A3 2 1 none = [0, 0] ∧
      ¬(svd_select O3 A3 2 1 none).Nodup := by
  have h : svd_select O3 A3 2 1 none = [0, 0] := by
    norm_num [svd_select, svdGo, A3, O3, Mat.copy, Mat.of, deflate, svdPi,
      zeroAt, argmaxUpTo, Finset.sum_range_succ]
  refine ⟨h, ?_⟩
  rw [h]
  decide

/-- **C3 (amended).**  The index lists contain no duplicates provided
every fresh selection round scores strictly positively at the selected
index after zeroing (which holds while the working copy retains nonzero
leverage outside the selected set, in particular for `n ≤ rank A` with
exact SVD scores; the run-level condition is the decidable trace checks
`svdGoChk` / `pcovrGoChk`): first two clauses for `svd_select` and
`pcovr_select` from any duplicate-free resume list, third clause for a
`CUR` instance — one `compute` call extends duplicate-free caches to
duplicate-free caches whenever its selection strategy preserves
duplicate-freeness. -/
theorem C3_no_duplicate_indices_amended :
    (∀ (O : Mat → ℕ → ℕ → ℚ) (A : Mat) (n k : ℕ) (l? : Option (List ℕ)),
        (l?.getD []).Nodup →
        svdGoChk k O n 0 A.copy (l?.getD []) = true →
        (svd_select O A n k l?).Nodup) ∧
      (∀ (eigTh : Mat → Except Unit (List (ℚ × (ℕ → ℚ)))) (rsqrt : ℚ → ℚ)
          (eigTop : Mat → ℕ → ℕ → ℚ) (pinvO : Mat → Mat) (A : Mat) (n : ℕ)
          (Y : Mat) (alpha : ℚ) (k : ℕ) (l? : Option (List ℕ)),
        (l?.getD []).Nodup →
        pcovrGoChk eigTh rsqrt eigTop pinvO alpha k n 0 A.copy Y.copy
            (l?.getD []) = true →
        (pcovr_select eigTh rsqrt eigTop pinvO A n Y alpha k l?).Nodup) ∧
      (∀ (pinvO : Mat → Mat) (self : CUR) (n_c : ℕ) (n_opt : Option ℕ)
          (t : Mat × Mat × Mat) (self' : CUR),
        SelNodup self.select → CachesNodup self →
        CUR.compute pinvO self n_c n_opt = .ok (t, self') →
        CachesNodup self') := by
  refine ⟨?_, ?_, ?_⟩
  · intro O A n k l? h hchk
    exact svdGoChk_nodup k O n 0 A.copy (l?.getD []) h hchk
  · intro eigTh rsqrt eigTop pinvO A n Y alpha k l? h hchk
    exact pcovrGoChk_nodup eigTh rsqrt eigTop pinvO alpha k n 0 A.copy Y.copy
      (l?.getD []) h hchk
  · intro pinvO self n_c n_opt t self' hsel hc hok
    unfold CUR.compute at hok
    rcases hres : (if self.fs = true then some self.A.c
        else if self.symmetric = true then some (n_opt.getD n_c) else n_opt) with
      _ | n_r
    · rw [hres] at hok
      exact absurd hok (by simp)
    · rw [hres] at hok
      simp only [Except.ok.injEq] at hok
      obtain ⟨-, hself⟩ := Prod.mk.injEq .. ▸ Prod.ext_iff.mp hok
      by_cases h1 : self.idx_c.isNone || (!self.fs && self.idx_r.isNone)
      · rw [if_pos h1] at hself
        subst hself
        have hn := compute_idx_nodup self n_c n_r hsel hc
        exact ⟨fun l hl => by cases hl; exact hn.1,
          fun l hl => by cases hl; exact hn.2⟩
      · rw [if_neg h1] at hself
        by_cases h2 : (self.idx_c.getD []).length < n_c ||
            (self.idx_r.getD []).length < n_r
        · rw [if_pos h2] at hself
          subst hself
          have hn := compute_idx_nodup self n_c n_r hsel hc
          exact ⟨fun l hl => by cases hl; exact hn.1,
            fun l hl => by cases hl; exact hn.2⟩
        · rw [if_neg h2] at hself
          subst hself
          exact hc

/-- Witness for C3 (amended): the honest oracle `O4` on
`A4 = diag(2,1)` selects `[0, 1]`, the trace check holds, and the
result is duplicate-free. -/
theorem C3_no_duplicate_indices_amended_witness :
    (svd_select O4 A4 2 1 none).Nodup :=
  C3_no_duplicate_indices_amended.1 O4 A4 2 1 none (by simp)
    (by norm_num [svdGoChk, A4, O4, Mat.copy, Mat.of, deflate, svdPi, zeroAt,
      argmaxUpTo, Finset.sum_range_succ])

end CURPy

namespace CURPy

/-! ## Claim C8: PCovR at `alpha = 1` versus SVD-leverage at `k = 1` -/

/-- At `alpha = 1` the blended covariance collapses to the plain
covariance exactly (as a matrix value), whenever the eigendecomposition
succeeds. -/
theorem get_Ct_alpha_one (eigTh : Mat → Except Unit (List (ℚ × (ℕ → ℚ))))
    (rsqrt : ℚ → ℚ) (X Y : Mat) (reg : ℚ)
    (pairs : List (ℚ × (ℕ → ℚ)))
    (hok : eigTh (X.transpose.mul X) = .ok pairs) :
    get_Ct eigTh rsqrt X Y 1 reg = .ok (X.transpose.mul X) := by
  simp only [get_Ct]
  rw [hok]
  refine congrArg Except.ok ?_
  exact Mat.eq_of_eqv _ _ (Mat.of_clipped _ _ _) (Mat.mul_clipped _ _)
    (smul_blend_one_eqv _ _)

/-- With a never-failing eigendecomposition and score-consistent
oracles, the two selection loops walk through identical matrix states
and identical index lists. -/
theorem pcovr_svd_go_agree (eigTh : Mat → Except Unit (List (ℚ × (ℕ → ℚ))))
    (rsqrt : ℚ → ℚ) (eigTop : Mat → ℕ → ℕ → ℚ) (pinvO : Mat → Mat)
    (svdD : Mat → ℕ → ℕ → ℚ)
    (hok : ∀ M : Mat, ∃ ps, eigTh M = .ok ps)
    (hcons : ∀ (M : Mat) (j : ℕ),
      svdPi 1 (svdD M) j = pcovrPi 1 (eigTop (M.transpose.mul M)) j) :
    ∀ (fuel nn : ℕ) (M Yc : Mat) (idxs : List ℕ),
      (pcovrGo eigTh rsqrt eigTop pinvO 1 1 fuel nn M Yc idxs).2.2 =
        (svdGo 1 svdD fuel nn M idxs).2 := by
  intro fuel
  induction fuel with
  | zero => intro nn M Yc idxs; simp [pcovrGo, svdGo]
  | succ f ih =>
      intro nn M Yc idxs
      have hpi : zeroAt (pcovrPi 1 (eigTop (M.transpose.mul M))) idxs =
          zeroAt (svdPi 1 (svdD M)) idxs := by
        funext j
        unfold zeroAt
        rw [hcons M j]
      by_cases hb : idxs.length ≤ nn
      · obtain ⟨ps, hps⟩ := hok (M.transpose.mul M)
        have hct : get_Ct eigTh rsqrt M Yc 1 (1 / 1000000) =
            .ok (M.transpose.mul M) :=
          get_Ct_alpha_one eigTh rsqrt M Yc (1 / 1000000) ps hps
        rw [pcovrGo_step_ok eigTh rsqrt eigTop pinvO 1 1 f nn M Yc
          (M.transpose.mul M) idxs hb hct]
        rw [svdGo_step 1 svdD f nn M idxs hb]
        rw [hpi]
        exact ih (nn + 1) _ _ _
      · rw [pcovrGo_step_replay eigTh rsqrt eigTop pinvO 1 1 f nn M Yc idxs hb]
        rw [svdGo_step_replay 1 svdD f nn M idxs hb]
        exact ih (nn + 1) _ _ _

/-- **C8 counterexample.**  The claim fails when the covariance floor
empties the spectrum: on `A8 = diag(1/1000, 1/2000)` (covariance
`diag(1e-6, 2.5e-7)`, entirely at or below the default floor `1e-6`),
PCovR selection with `alpha = 1` terminates before its first round and
returns no indices, while SVD-leverage selection with `k = 1` returns
`[0]` — different lists at the same requested count `n = 1`. -/
theorem C8_counterexample_rank_floor :
    pcovr_select eig8 rsqrt4 eigTop8 pinv0 A8 1 Y8 1 1 none = [] ∧
      svd_select O3 A8 1 1 none = [0] ∧
      ([] : List ℕ) ≠ [0] := by
  refine ⟨?_, ?_, by decide⟩
  · norm_num [pcovr_select, pcovrGo, get_Ct, eig8, A8, Y8, Mat.copy, Mat.of,
      Mat.mul, Mat.transpose, Finset.sum_range_succ]
  · norm_num [svd_select, svdGo, A8, O3, Mat.copy, Mat.of, deflate, svdPi,
      zeroAt, argmaxUpTo, Finset.sum_range_succ]

/-- **C8 (amended).**  Provided covariance construction succeeds in
every round (the eigendecomposition oracle never reports rank
deficiency) and the SVD and eigensolver scores are consistent (the
squared top-singular-vector component equals the squared top
`XᵀX`-eigenvector component — true of exact oracles, where the top
right singular vector is the top covariance eigenvector up to sign),
`pcovr_select` with `alpha = 1` selects identical indices, in identical
order, to `svd_select` with `k = 1` on the same matrix, requested
count, and resume list. -/
theorem C8_pcovr_alpha1_eq_svd_amended
    (eigTh : Mat → Except Unit (List (ℚ × (ℕ → ℚ)))) (rsqrt : ℚ → ℚ)
    (eigTop : Mat → ℕ → ℕ → ℚ) (pinvO : Mat → Mat)
    (svdD : Mat → ℕ → ℕ → ℚ)
    (hok : ∀ M : Mat, ∃ ps, eigTh M = .ok ps)
    (hcons : ∀ (M : Mat) (j : ℕ),
      svdPi 1 (svdD M) j = pcovrPi 1 (eigTop (M.transpose.mul M)) j)
    (A Y : Mat) (n : ℕ) (l? : Option (List ℕ)) :
    pcovr_select eigTh rsqrt eigTop pinvO A n Y 1 1 l? =
      svd_select svdD A n 1 l? := by
  unfold pcovr_select svd_select
  exact pcovr_svd_go_agree eigTh rsqrt eigTop pinvO svdD hok hcons n 0 A.copy
    Y.copy (l?.getD [])

/-- Witness for C8 (amended) at concrete oracles and input: the
always-succeeding eigendecomposition, the `e₀` top-eigenvector oracle
and its consistent SVD oracle `O3`, on `A4 = diag(2,1)`. -/
theorem C8_pcovr_alpha1_eq_svd_amended_witness :
    pcovr_select eigOk rsqrt4 eigTop8 pinv0 A4 2 Y8 1 1 none =
      svd_select O3 A4 2 1 none :=
  C8_pcovr_alpha1_eq_svd_amended eigOk rsqrt4 eigTop8 pinv0 O3
    (fun _ => ⟨[], rfl⟩)
    (fun M j => by simp [svdPi, pcovrPi, O3, eigTop8]) A4 Y8 2 none

end CURPy

namespace CURPy

/-! ## Resumability of `svd_select` -/

theorem getD_append_single (l : List ℕ) (j : ℕ) :
    (l ++ [j]).getD l.length 0 = j := by
  rw [List.getD_eq_getElem _ 0 (by simp)]
  exact List.getElem_concat_length l j l.length rfl (by simp)

theorem getD_append_left (l l' : List ℕ) (n : ℕ) (h : n < l.length) :
    (l ++ l').getD n 0 = l.getD n 0 :=
  List.getD_append l l' 0 n h

theorem svdGo_split (k : ℕ) (O : Mat → ℕ → ℕ → ℚ) :
    ∀ (f1 f2 nn : ℕ) (M : Mat) (idxs : List ℕ),
      svdGo k O (f1 + f2) nn M idxs =
        svdGo k O f2 (nn + f1) (svdGo k O f1 nn M idxs).1
          (svdGo k O f1 nn M idxs).2 := by
  intro f1
  induction f1 with
  | zero => intro f2 nn M idxs; simp [svdGo]
  | succ f ih =>
      intro f2 nn M idxs
      have h1 : f + 1 + f2 = (f + f2) + 1 := by omega
      have h2 : nn + (f + 1) = nn + 1 + f := by omega
      rw [h1]
      by_cases hb : idxs.length ≤ nn
      · rw [svdGo_step k O (f + f2) nn M idxs hb, svdGo_step k O f nn M idxs hb,
          ih f2 (nn + 1) _ _, h2]
      · rw [svdGo_step_replay k O (f + f2) nn M idxs hb,
          svdGo_step_replay k O f nn M idxs hb, ih f2 (nn + 1) _ _, h2]

theorem svdGo_length_fresh (k : ℕ) (O : Mat → ℕ → ℕ → ℚ) :
    ∀ (fuel nn : ℕ) (M : Mat) (idxs : List ℕ), idxs.length = nn →
      (svdGo k O fuel nn M idxs).2.length = nn + fuel := by
  intro fuel
  induction fuel with
  | zero => intro nn M idxs h; simpa [svdGo] using h
  | succ f ih =>
      intro nn M idxs h
      have hb : idxs.length ≤ nn := le_of_eq h
      rw [svdGo_step k O f nn M idxs hb]
      have hlen : (idxs ++ [argmaxUpTo (zeroAt (svdPi k (O M)) idxs) M.c]).length
          = nn + 1 := by simp [h]
      rw [ih (nn + 1) _ _ hlen]
      omega

theorem svdGo_replay_with_final (k : ℕ) (O : Mat → ℕ → ℕ → ℚ) :
    ∀ (fuel nn : ℕ) (M : Mat) (idxs : List ℕ) (Mfin : Mat)
      (idxsfin : List ℕ),
      svdGo k O fuel nn M idxs = (Mfin, idxsfin) → nn ≤ idxs.length →
      svdGo k O fuel nn M idxsfin = (Mfin, idxsfin) := by
  intro fuel
  induction fuel with
  | zero =>
      intro nn M idxs Mfin idxsfin h _
      simp only [svdGo] at h ⊢
      obtain ⟨h1, h2⟩ := Prod.mk.injEq .. ▸ h
      rw [h1]
  | succ f ih =>
      intro nn M idxs Mfin idxsfin h hnn
      by_cases hb : idxs.length ≤ nn
      · have hlen : idxs.length = nn := le_antisymm hb hnn
        rw [svdGo_step k O f nn M idxs hb] at h
        have hg : (idxs ++ [argmaxUpTo (zeroAt (svdPi k (O M)) idxs) M.c]).getD
            nn 0 = argmaxUpTo (zeroAt (svdPi k (O M)) idxs) M.c := by
          rw [← hlen]
          exact getD_append_single _ _
        rw [hg] at h
        obtain ⟨new, hnew⟩ := svdGo_extends k O f (nn + 1)
          (deflate M (argmaxUpTo (zeroAt (svdPi k (O M)) idxs) M.c))
          (idxs ++ [argmaxUpTo (zeroAt (svdPi k (O M)) idxs) M.c])
        rw [h] at hnew
        dsimp only at hnew
        have hfinlen : ¬ idxsfin.length ≤ nn := by
          rw [hnew]
          simp only [List.length_append, List.length_singleton]
          omega
        rw [svdGo_step_replay k O f nn M idxsfin hfinlen]
        have hg2 : idxsfin.getD nn 0 =
            argmaxUpTo (zeroAt (svdPi k (O M)) idxs) M.c := by
          rw [hnew, getD_append_left _ new nn (by simp [hlen])]
          rw [← hlen]
          exact getD_append_single _ _
        rw [hg2]
        exact ih (nn + 1)
          (deflate M (argmaxUpTo (zeroAt (svdPi k (O M)) idxs) M.c))
          (idxs ++ [argmaxUpTo (zeroAt (svdPi k (O M)) idxs) M.c]) Mfin idxsfin
          h (by simp [hlen])
      · rw [svdGo_step_replay k O f nn M idxs hb] at h
        obtain ⟨new, hnew⟩ := svdGo_extends k O f (nn + 1)
          (deflate M (idxs.getD nn 0)) idxs
        rw [h] at hnew
        dsimp only at hnew
        have hfinlen : ¬ idxsfin.length ≤ nn := by
          rw [hnew]
          simp only [List.length_append]
          omega
        rw [svdGo_step_replay k O f nn M idxsfin hfinlen]
        have hg2 : idxsfin.getD nn 0 = idxs.getD nn 0 := by
          rw [hnew]
          exact getD_append_left _ _ nn (by omega)
        rw [hg2]
        exact ih (nn + 1) (deflate M (idxs.getD nn 0)) idxs Mfin idxsfin h
          (by omega)

end CURPy

namespace CURPy

/-! ## Deflation geometry: zeroed columns and orthogonality -/

theorem deflate_clipped (M : Mat) (j : ℕ) : (deflate M j).Clipped :=
  Mat.of_clipped _ _ _

theorem deflate_e (M : Mat) (j i i' : ℕ) (hi : i < M.r) (hi' : i' < M.c) :
    (deflate M j).e i i' =
      M.e i i' -
        M.e i j * (∑ t ∈ Finset.range M.r, M.e t j * M.e t i') /
          (∑ t ∈ Finset.range M.r, M.e t j * M.e t j) := by
  simp [deflate, Mat.of_e, hi, hi']

/-- Over exact arithmetic a zero column-norm forces the (in-range part
of the) column to vanish. -/
theorem col_norm_zero (M : Mat) (j : ℕ)
    (hs : ∑ t ∈ Finset.range M.r, M.e t j * M.e t j = 0) :
    ∀ t ∈ Finset.range M.r, M.e t j = 0 := by
  intro t ht
  have hnn : ∀ u ∈ Finset.range M.r, 0 ≤ M.e u j * M.e u j := fun u _ =>
    mul_self_nonneg _
  exact mul_self_eq_zero.mp ((Finset.sum_eq_zero_iff_of_nonneg hnn).mp hs t ht)

/-- The deflated column itself becomes identically zero. -/
theorem deflate_colZero_self (M : Mat) (j : ℕ) :
    colZero (deflate M j) j := by
  intro t
  by_cases ht : t < M.r ∧ j < M.c
  · rw [deflate_e M j t j ht.1 ht.2]
    by_cases hs : ∑ u ∈ Finset.range M.r, M.e u j * M.e u j = 0
    · have h0 : M.e t j = 0 := col_norm_zero M j hs t (Finset.mem_range.mpr ht.1)
      simp [h0]
    · rw [mul_div_assoc, div_self hs, mul_one, sub_self]
  · exact deflate_clipped M j t j (by simpa using ht)

/-- A zero column stays zero under any further deflation. -/
theorem deflate_colZero_preserve (M : Mat) (j v : ℕ) (h : colZero M v) :
    colZero (deflate M j) v := by
  intro t
  by_cases ht : t < M.r ∧ v < M.c
  · rw [deflate_e M j t v ht.1 ht.2]
    have hnum : ∑ u ∈ Finset.range M.r, M.e u j * M.e u v = 0 :=
      Finset.sum_eq_zero fun u _ => by rw [h u]; ring
    rw [h t, hnum]
    ring
  · exact deflate_clipped M j t v (by simpa using ht)

/-- Deflation preserves orthogonality of every column to a fixed
vector. -/
theorem deflate_perp_preserve (M : Mat) (j : ℕ) (w : ℕ → ℚ)
    (hperp : ∀ i, ∑ t ∈ Finset.range M.r, M.e t i * w t = 0) :
    ∀ i, ∑ t ∈ Finset.range M.r, (deflate M j).e t i * w t = 0 := by
  intro i
  by_cases hi : i < M.c
  · have hrw : ∀ t ∈ Finset.range M.r,
        (deflate M j).e t i * w t =
          M.e t i * w t -
            ((∑ u ∈ Finset.range M.r, M.e u j * M.e u i) /
              (∑ u ∈ Finset.range M.r, M.e u j * M.e u j)) *
              (M.e t j * w t) := by
      intro t ht
      rw [deflate_e M j t i (Finset.mem_range.mp ht) hi]
      ring
    rw [Finset.sum_congr rfl hrw, Finset.sum_sub_distrib, ← Finset.mul_sum,
      hperp i, hperp j]
    ring
  · have hz : ∀ t ∈ Finset.range M.r, (deflate M j).e t i * w t = 0 := by
      intro t _
      rw [deflate_clipped M j t i (fun hc => hi hc.2)]
      ring
    exact Finset.sum_eq_zero hz

/-- Every column of the deflated matrix is orthogonal to the deflating
column. -/
theorem deflate_perp_pivot (M : Mat) (j : ℕ) :
    ∀ i, ∑ t ∈ Finset.range M.r, (deflate M j).e t i * M.e t j = 0 := by
  intro i
  by_cases hs : ∑ u ∈ Finset.range M.r, M.e u j * M.e u j = 0
  · refine Finset.sum_eq_zero fun t ht => ?_
    rw [col_norm_zero M j hs t ht]
    ring
  · by_cases hi : i < M.c
    · have hrw : ∀ t ∈ Finset.range M.r,
          (deflate M j).e t i * M.e t j =
            M.e t i * M.e t j -
              ((∑ u ∈ Finset.range M.r, M.e u j * M.e u i) /
                (∑ u ∈ Finset.range M.r, M.e u j * M.e u j)) *
                (M.e t j * M.e t j) := by
        intro t ht
        rw [deflate_e M j t i (Finset.mem_range.mp ht) hi]
        ring
      rw [Finset.sum_congr rfl hrw, Finset.sum_sub_distrib, ← Finset.mul_sum]
      rw [div_mul_cancel₀ _ hs]
      have hcomm : ∑ t ∈ Finset.range M.r, M.e t i * M.e t j =
          ∑ u ∈ Finset.range M.r, M.e u j * M.e u i :=
        Finset.sum_congr rfl fun t _ => mul_comm _ _
      rw [hcomm, sub_self]
    · refine Finset.sum_eq_zero fun t _ => ?_
      rw [deflate_clipped M j t i (fun hc => hi hc.2)]
      ring

/-- Decomposition of a column into its deflated part and its component
along the deflating column (requires a clipped matrix). -/
theorem deflate_decomp (M : Mat) (hM : M.Clipped) (j v t : ℕ) :
    M.e t v = (deflate M j).e t v +
      M.e t j * ((∑ u ∈ Finset.range M.r, M.e u j * M.e u v) /
        (∑ u ∈ Finset.range M.r, M.e u j * M.e u j)) := by
  by_cases htv : t < M.r ∧ v < M.c
  · rw [deflate_e M j t v htv.1 htv.2]
    ring
  · rw [hM t v htv, deflate_clipped M j t v (by simpa using htv)]
    rcases Decidable.not_and_iff_or_not.mp htv with ht | hv
    · rw [hM t j (fun hc => ht hc.1)]
      ring
    · have hnum : ∑ u ∈ Finset.range M.r, M.e u j * M.e u v = 0 :=
        Finset.sum_eq_zero fun u _ => by
          rw [hM u v (fun hc => hv hc.2)]; ring
      rw [hnum]
      ring

theorem deflSeq_cons (M : Mat) (j : ℕ) (l : List ℕ) :
    deflSeq M (j :: l) = deflSeq (deflate M j) l := rfl

theorem deflSeq_nil (M : Mat) : deflSeq M [] = M := rfl

theorem deflSeq_r (l : List ℕ) : ∀ M : Mat, (deflSeq M l).r = M.r := by
  induction l with
  | nil => intro M; rfl
  | cons j rest ih => intro M; rw [deflSeq_cons]; exact ih (deflate M j)

theorem deflSeq_c (l : List ℕ) : ∀ M : Mat, (deflSeq M l).c = M.c := by
  induction l with
  | nil => intro M; rfl
  | cons j rest ih => intro M; rw [deflSeq_cons]; exact ih (deflate M j)

theorem deflSeq_clipped (l : List ℕ) : ∀ M : Mat, M.Clipped →
    (deflSeq M l).Clipped := by
  induction l with
  | nil => intro M h; exact h
  | cons j rest ih => intro M h; exact ih (deflate M j) (deflate_clipped M j)

theorem deflSeq_colZero_preserve (l : List ℕ) : ∀ (M : Mat) (v : ℕ),
    colZero M v → colZero (deflSeq M l) v := by
  induction l with
  | nil => intro M v h; exact h
  | cons j rest ih =>
      intro M v h
      exact ih (deflate M j) v (deflate_colZero_preserve M j v h)

theorem deflSeq_perp_preserve (l : List ℕ) : ∀ (M : Mat) (w : ℕ → ℚ),
    (∀ i, ∑ t ∈ Finset.range M.r, M.e t i * w t = 0) →
    ∀ i, ∑ t ∈ Finset.range M.r, (deflSeq M l).e t i * w t = 0 := by
  induction l with
  | nil => intro M w h i; exact h i
  | cons j rest ih =>
      intro M w h i
      rw [deflSeq_cons]
      exact ih (deflate M j) w (deflate_perp_preserve M j w h) i

/-- Every column of the fully deflated matrix is orthogonal to each
still-to-be-deflated column at every intermediate stage. -/
theorem deflSeq_perp_future :
    ∀ (ld : List ℕ) (M : Mat), M.Clipped → ∀ k, k < ld.length → ∀ i,
      ∑ t ∈ Finset.range M.r, (deflSeq M ld).e t i * M.e t (ld.getD k 0) = 0 := by
  intro ld
  induction ld with
  | nil => intro M _ k hk; simp at hk
  | cons j rest ih =>
      intro M hM k hk i
      rcases k with _ | k'
      · rw [List.getD_cons_zero, deflSeq_cons]
        exact deflSeq_perp_preserve rest (deflate M j) (fun t => M.e t j)
          (deflate_perp_pivot M j) i
      · rw [List.getD_cons_succ, deflSeq_cons]
        have hih :
            ∑ t ∈ Finset.range M.r,
              (deflSeq (deflate M j) rest).e t i *
                (deflate M j).e t (rest.getD k' 0) = 0 :=
          ih (deflate M j) (deflate_clipped M j) k' (by simpa using hk) i
        have hpiv :
            ∑ t ∈ Finset.range M.r,
              (deflSeq (deflate M j) rest).e t i * M.e t j = 0 :=
          deflSeq_perp_preserve rest (deflate M j) (fun t => M.e t j)
            (deflate_perp_pivot M j) i
        have hrw : ∀ t ∈ Finset.range M.r,
            (deflSeq (deflate M j) rest).e t i * M.e t (rest.getD k' 0) =
              (deflSeq (deflate M j) rest).e t i *
                  (deflate M j).e t (rest.getD k' 0) +
                ((∑ u ∈ Finset.range M.r, M.e u j * M.e u (rest.getD k' 0)) /
                  (∑ u ∈ Finset.range M.r, M.e u j * M.e u j)) *
                  ((deflSeq (deflate M j) rest).e t i * M.e t j) := by
          intro t _
          rw [deflate_decomp M hM j (rest.getD k' 0) t]
          ring
        rw [Finset.sum_congr rfl hrw, Finset.sum_add_distrib, ← Finset.mul_sum,
          hih, hpiv]
        ring

end CURPy

namespace CURPy

/-! ## Zero-column updates are no-ops; orthogonality through products -/

theorem mul_zero_left (A B : Mat) (hA : ∀ t z, A.e t z = 0) :
    ∀ t z, (A.mul B).e t z = 0 := by
  intro t z
  by_cases h : t < A.r ∧ z < B.c
  · rw [Mat.mul_e A B t z h.1 h.2]
    exact Finset.sum_eq_zero fun u _ => by rw [hA t u]; ring
  · exact Mat.mul_clipped A B t z h

/-- `update` leaves the property matrix unchanged when every selected
column of the working copy is zero (which is always the case for the
columns at already-selected indices). -/
theorem update_noop (pinvO : Mat → Mat) (Yc X_c : Mat) (hY : Yc.Clipped)
    (hX : ∀ t z, X_c.e t z = 0) : update pinvO Yc X_c = Yc := by
  have hv2 : ∀ t z, (X_c.mul (pinvO (X_c.transpose.mul X_c))).e t z = 0 :=
    mul_zero_left _ _ hX
  have hv3 : ∀ t z,
      ((X_c.mul (pinvO (X_c.transpose.mul X_c))).mul X_c.transpose).e t z = 0 :=
    mul_zero_left _ _ hv2
  have hz : ∀ t z,
      (((X_c.mul (pinvO (X_c.transpose.mul X_c))).mul X_c.transpose).mul
        Yc).e t z = 0 :=
    mul_zero_left _ _ hv3
  simp only [update]
  refine Mat.ext_of _ _ rfl rfl ?_
  funext i j
  by_cases hij : i < Yc.r ∧ j < Yc.c
  · rw [Mat.sub_e _ _ i j hij.1 hij.2, hz i j, sub_zero]
  · rw [Mat.sub_clipped _ _ i j hij, hY i j hij]

theorem colsAt_zero (M : Mat) (l : List ℕ)
    (h : ∀ kk < l.length, colZero M (l.getD kk 0)) :
    ∀ t z, (M.colsAt l).e t z = 0 := by
  intro t z
  by_cases hz : t < M.r ∧ z < l.length
  · rw [Mat.colsAt_e M l t z hz.1 hz.2]
    exact h z hz.2 t
  · exact Mat.of_clipped _ _ _ t z hz

/-- Orthogonality of a fixed vector family to all columns of `G`
propagates through a product `G·H`. -/
theorem perp_mul_right (r : ℕ) (F G : Mat) (i : ℕ) (hG : G.r = r)
    (h : ∀ z, ∑ t ∈ Finset.range r, F.e t i * G.e t z = 0) (H : Mat) (j : ℕ) :
    ∑ t ∈ Finset.range r, F.e t i * (G.mul H).e t j = 0 := by
  by_cases hj : j < H.c
  · have hrw : ∀ t ∈ Finset.range r,
        F.e t i * (G.mul H).e t j =
          ∑ z ∈ Finset.range G.c, F.e t i * G.e t z * H.e z j := by
      intro t ht
      rw [Mat.mul_e G H t j (by rw [hG]; exact Finset.mem_range.mp ht) hj,
        Finset.mul_sum]
      exact Finset.sum_congr rfl fun z _ => by ring
    rw [Finset.sum_congr rfl hrw, Finset.sum_comm]
    refine Finset.sum_eq_zero fun z _ => ?_
    rw [← Finset.sum_mul, h z, zero_mul]
  · refine Finset.sum_eq_zero fun t _ => ?_
    rw [Mat.mul_clipped G H t j (fun hc => hj hc.2)]
    ring

end CURPy

namespace CURPy

/-! ## Runs started from a fresh (never-resumed) state -/

/-- In a run whose index list initially covers exactly the finished
rounds (in particular any run started with `idxs=[]`), every round is
fresh, the property matrix is never changed (each update sees only
zeroed columns), the working copy is the deflation of the input along
the newly selected indices, which are all zeroed columns afterwards;
the run either uses all its fuel or stops on a rank-deficiency
failure at its final working copy. -/
theorem pcovrGo_fresh_run (eigTh : Mat → Except Unit (List (ℚ × (ℕ → ℚ))))
    (rsqrt : ℚ → ℚ) (eigTop : Mat → ℕ → ℕ → ℚ) (pinvO : Mat → Mat)
    (alpha : ℚ) (k : ℕ) :
    ∀ (fuel nn : ℕ) (M Yc : Mat) (idxs : List ℕ) (res : Mat × Mat × List ℕ),
      pcovrGo eigTh rsqrt eigTop pinvO alpha k fuel nn M Yc idxs = res →
      idxs.length = nn → M.Clipped → Yc.Clipped →
      (∀ kk < idxs.length, colZero M (idxs.getD kk 0)) →
      res.2.1 = Yc ∧
        res.1 = deflSeq M (res.2.2.drop nn) ∧
        (∀ kk < res.2.2.length, colZero res.1 (res.2.2.getD kk 0)) ∧
        res.1.Clipped ∧
        (∃ suf, res.2.2 = idxs ++ suf) ∧
        res.2.2.length ≤ nn + fuel ∧
        (res.2.2.length = nn + fuel ∨
          eigTh (res.1.transpose.mul res.1) = .error ()) := by
  intro fuel
  induction fuel with
  | zero =>
      intro nn M Yc idxs res hres hlen hM hY hz
      simp only [pcovrGo] at hres
      subst hres
      dsimp only
      have hdrop : idxs.drop nn = [] := by
        rw [← hlen]
        exact List.drop_length idxs
      refine ⟨rfl, ?_, hz, hM, ⟨[], by simp⟩, by omega, Or.inl (by omega)⟩
      rw [hdrop, deflSeq_nil]
  | succ f ih =>
      intro nn M Yc idxs res hres hlen hM hY hz
      have hb : idxs.length ≤ nn := le_of_eq hlen
      rcases hct : get_Ct eigTh rsqrt M Yc alpha (1 / 1000000) with u | Ct
      · cases u
        rw [pcovrGo_error_stops eigTh rsqrt eigTop pinvO alpha k f nn M Yc idxs
          hb hct] at hres
        subst hres
        dsimp only
        have hdrop : idxs.drop nn = [] := by
          rw [← hlen]
          exact List.drop_length idxs
        refine ⟨rfl, ?_, hz, hM, ⟨[], by simp⟩, by omega, Or.inr ?_⟩
        · rw [hdrop, deflSeq_nil]
        · exact (get_Ct_error_iff eigTh rsqrt M Yc alpha (1 / 1000000)).mp hct
      · rw [pcovrGo_step_ok eigTh rsqrt eigTop pinvO alpha k f nn M Yc Ct idxs
          hb hct] at hres
        have hg : (idxs ++ [argmaxUpTo (zeroAt (pcovrPi k (eigTop Ct)) idxs)
            M.c]).getD nn 0 =
            argmaxUpTo (zeroAt (pcovrPi k (eigTop Ct)) idxs) M.c := by
          rw [← hlen]
          exact getD_append_single idxs _
        rw [hg] at hres
        set j := argmaxUpTo (zeroAt (pcovrPi k (eigTop Ct)) idxs) M.c with hjdef
        have hzcols : ∀ kk < (idxs ++ [j]).length,
            colZero (deflate M j) ((idxs ++ [j]).getD kk 0) := by
          intro kk hkk
          have hkk2 : kk < idxs.length + 1 := by simpa using hkk
          by_cases hkk' : kk < idxs.length
          · rw [getD_append_left idxs [j] kk hkk']
            exact deflate_colZero_preserve M j _ (hz kk hkk')
          · have hkkeq : kk = idxs.length := by omega
            subst hkkeq
            rw [getD_append_single idxs j]
            exact deflate_colZero_self M j
        have hnoop : update pinvO Yc ((deflate M j).colsAt (idxs ++ [j])) = Yc :=
          update_noop pinvO Yc _ hY (colsAt_zero _ _ hzcols)
        rw [hnoop] at hres
        have hih := ih (nn + 1) (deflate M j) Yc (idxs ++ [j]) res hres
          (by simp [hlen]) (deflate_clipped M j) hY hzcols
        obtain ⟨hY1, hdefl, hcz, hclip, ⟨suf, hsuf⟩, hle, hor⟩ := hih
        have hlt : nn < res.2.2.length := by
          rw [hsuf]
          simp only [List.length_append, List.length_cons, List.length_nil,
            ← hlen]
          omega
        refine ⟨hY1, ?_, hcz, hclip,
          ⟨[j] ++ suf, by rw [hsuf, List.append_assoc]⟩, ?_, ?_⟩
        · have hgetnn : res.2.2.getD nn 0 = j := by
            rw [hsuf, getD_append_left _ suf nn (by simp [hlen]), ← hlen]
            exact getD_append_single idxs j
          have hdrop2 : res.2.2.drop nn = j :: res.2.2.drop (nn + 1) := by
            rw [List.drop_eq_getElem_cons hlt]
            congr 1
            rw [← List.getD_eq_getElem _ 0 hlt, hgetnn]
          rw [hdrop2, deflSeq_cons]
          exact hdefl
        · exact hle.trans (by omega)
        · rcases hor with h1 | h2
          · exact Or.inl (by omega)
          · exact Or.inr h2

end CURPy

namespace CURPy

/-! ## The property matrix influences selection only through `XᵀY` -/

theorem XtY_eq_of_perp (X Y₁ Y₂ : Mat) (hY₁ : Y₁.Clipped) (hY₂ : Y₂.Clipped)
    (hr : Y₁.r = Y₂.r) (hc : Y₁.c = Y₂.c)
    (hperp : ∀ i j, ∑ t ∈ Finset.range X.r,
      X.e t i * (Y₁.e t j - Y₂.e t j) = 0) :
    X.transpose.mul Y₁ = X.transpose.mul Y₂ := by
  refine Mat.ext_of _ _ rfl hc ?_
  funext i j
  by_cases hij : i < X.c ∧ j < Y₁.c
  · rw [Mat.mul_e _ _ i j hij.1 hij.2, Mat.mul_e _ _ i j hij.1 (hc ▸ hij.2)]
    have hrw1 : ∀ t ∈ Finset.range X.transpose.c,
        X.transpose.e i t * Y₁.e t j = X.e t i * Y₁.e t j := by
      intro t ht
      rw [Mat.transpose_e X i t hij.1 (Finset.mem_range.mp ht)]
    have hrw2 : ∀ t ∈ Finset.range X.transpose.c,
        X.transpose.e i t * Y₂.e t j = X.e t i * Y₂.e t j := by
      intro t ht
      rw [Mat.transpose_e X i t hij.1 (Finset.mem_range.mp ht)]
    rw [Finset.sum_congr rfl hrw1, Finset.sum_congr rfl hrw2]
    have hdiff := hperp i j
    have hsub : (∑ t ∈ Finset.range X.r, X.e t i * Y₁.e t j) -
        (∑ t ∈ Finset.range X.r, X.e t i * Y₂.e t j) = 0 := by
      rw [← Finset.sum_sub_distrib]
      rw [← hdiff]
      exact Finset.sum_congr rfl fun t _ => by ring
    have hceq : (X.transpose.c : ℕ) = X.r := rfl
    rw [hceq]
    linarith [hsub]
  · have h1 : (X.transpose.mul Y₁).e i j = 0 :=
      Mat.mul_clipped _ _ i j (by simpa using hij)
    have h2 : (X.transpose.mul Y₂).e i j = 0 :=
      Mat.mul_clipped _ _ i j (by
        simp only [Mat.mul_r, Mat.mul_c, Mat.transpose_r]
        rw [← hc]
        simpa using hij)
    rw [h1, h2]

theorem get_Ct_Y_invariant (eigTh : Mat → Except Unit (List (ℚ × (ℕ → ℚ))))
    (rsqrt : ℚ → ℚ) (X Y₁ Y₂ : Mat) (alpha reg : ℚ)
    (h : X.transpose.mul Y₁ = X.transpose.mul Y₂) :
    get_Ct eigTh rsqrt X Y₁ alpha reg = get_Ct eigTh rsqrt X Y₂ alpha reg := by
  unfold get_Ct
  rw [h]

theorem pcovrGo_error_absorb (eigTh : Mat → Except Unit (List (ℚ × (ℕ → ℚ))))
    (rsqrt : ℚ → ℚ) (eigTop : Mat → ℕ → ℕ → ℚ) (pinvO : Mat → Mat)
    (alpha : ℚ) (k fuel nn : ℕ) (M Yc : Mat) (idxs : List ℕ)
    (hfresh : idxs.length ≤ nn)
    (herr : eigTh (M.transpose.mul M) = .error ()) :
    pcovrGo eigTh rsqrt eigTop pinvO alpha k fuel nn M Yc idxs =
      (M, Yc, idxs) := by
  cases fuel with
  | zero => rfl
  | succ f =>
      exact pcovrGo_error_stops eigTh rsqrt eigTop pinvO alpha k f nn M Yc idxs
        hfresh ((get_Ct_error_iff eigTh rsqrt M Yc alpha (1 / 1000000)).mpr herr)

/-! ## Continuation agreement: `Y`-states that agree through `XᵀY` -/

theorem pcovrGo_Y_agree (eigTh : Mat → Except Unit (List (ℚ × (ℕ → ℚ))))
    (rsqrt : ℚ → ℚ) (eigTop : Mat → ℕ → ℕ → ℚ) (pinvO : Mat → Mat)
    (alpha : ℚ) (k : ℕ) :
    ∀ (fuel nn : ℕ) (M Yc₁ Yc₂ : Mat) (idxs : List ℕ),
      idxs.length = nn → M.Clipped → Yc₁.Clipped → Yc₂.Clipped →
      Yc₁.r = Yc₂.r → Yc₁.c = Yc₂.c → M.r = Yc₁.r →
      (∀ kk < idxs.length, colZero M (idxs.getD kk 0)) →
      (∀ i j, ∑ t ∈ Finset.range M.r,
        M.e t i * (Yc₁.e t j - Yc₂.e t j) = 0) →
      (pcovrGo eigTh rsqrt eigTop pinvO alpha k fuel nn M Yc₁ idxs).2.2 =
        (pcovrGo eigTh rsqrt eigTop pinvO alpha k fuel nn M Yc₂ idxs).2.2 := by
  intro fuel
  induction fuel with
  | zero => intro nn M Yc₁ Yc₂ idxs _ _ _ _ _ _ _ _ _; simp [pcovrGo]
  | succ f ih =>
      intro nn M Yc₁ Yc₂ idxs hlen hM hY₁ hY₂ hrr hcc hMr hz hperp
      have hb : idxs.length ≤ nn := le_of_eq hlen
      have hXtY : M.transpose.mul Yc₁ = M.transpose.mul Yc₂ := by
        refine XtY_eq_of_perp M Yc₁ Yc₂ hY₁ hY₂ hrr hcc ?_
        exact hperp
      have hcteq : get_Ct eigTh rsqrt M Yc₁ alpha (1 / 1000000) =
          get_Ct eigTh rsqrt M Yc₂ alpha (1 / 1000000) :=
        get_Ct_Y_invariant eigTh rsqrt M Yc₁ Yc₂ alpha (1 / 1000000) hXtY
      rcases hct : get_Ct eigTh rsqrt M Yc₁ alpha (1 / 1000000) with u | Ct
      · cases u
        have hct₂ : get_Ct eigTh rsqrt M Yc₂ alpha (1 / 1000000) = .error () := by
          rw [← hcteq, hct]
        rw [pcovrGo_error_stops eigTh rsqrt eigTop pinvO alpha k f nn M Yc₁
          idxs hb hct,
          pcovrGo_error_stops eigTh rsqrt eigTop pinvO alpha k f nn M Yc₂
          idxs hb hct₂]
      · have hct₂ : get_Ct eigTh rsqrt M Yc₂ alpha (1 / 1000000) = .ok Ct := by
          rw [← hcteq, hct]
        rw [pcovrGo_step_ok eigTh rsqrt eigTop pinvO alpha k f nn M Yc₁ Ct idxs
          hb hct,
          pcovrGo_step_ok eigTh rsqrt eigTop pinvO alpha k f nn M Yc₂ Ct idxs
          hb hct₂]
        set j := argmaxUpTo (zeroAt (pcovrPi k (eigTop Ct)) idxs) M.c with hjdef
        have hg : (idxs ++ [j]).getD nn 0 = j := by
          rw [← hlen]
          exact getD_append_single idxs _
        rw [hg]
        have hzcols : ∀ kk < (idxs ++ [j]).length,
            colZero (deflate M j) ((idxs ++ [j]).getD kk 0) := by
          intro kk hkk
          have hkk2 : kk < idxs.length + 1 := by simpa using hkk
          by_cases hkk' : kk < idxs.length
          · rw [getD_append_left idxs [j] kk hkk']
            exact deflate_colZero_preserve M j _ (hz kk hkk')
          · have hkkeq : kk = idxs.length := by omega
            subst hkkeq
            rw [getD_append_single idxs j]
            exact deflate_colZero_self M j
        have hnoop₁ : update pinvO Yc₁ ((deflate M j).colsAt (idxs ++ [j])) =
            Yc₁ :=
          update_noop pinvO Yc₁ _ hY₁ (colsAt_zero _ _ hzcols)
        have hnoop₂ : update pinvO Yc₂ ((deflate M j).colsAt (idxs ++ [j])) =
            Yc₂ :=
          update_noop pinvO Yc₂ _ hY₂ (colsAt_zero _ _ hzcols)
        rw [hnoop₁, hnoop₂]
        refine ih (nn + 1) (deflate M j) Yc₁ Yc₂ (idxs ++ [j]) (by simp [hlen])
          (deflate_clipped M j) hY₁ hY₂ hrr hcc hMr hzcols ?_
        intro i j'
        exact deflate_perp_preserve M j (fun t => Yc₁.e t j' - Yc₂.e t j')
          (fun i' => hperp i' j') i

end CURPy

namespace CURPy

/-! ## Fuel splitting for the pcovr loop -/

theorem pcovrGo_split (eigTh : Mat → Except Unit (List (ℚ × (ℕ → ℚ))))
    (rsqrt : ℚ → ℚ) (eigTop : Mat → ℕ → ℕ → ℚ) (pinvO : Mat → Mat)
    (alpha : ℚ) (k : ℕ) :
    ∀ (f1 f2 nn : ℕ) (M Yc : Mat) (idxs : List ℕ),
      pcovrGo eigTh rsqrt eigTop pinvO alpha k (f1 + f2) nn M Yc idxs =
        pcovrGo eigTh rsqrt eigTop pinvO alpha k f2 (nn + f1)
          (pcovrGo eigTh rsqrt eigTop pinvO alpha k f1 nn M Yc idxs).1
          (pcovrGo eigTh rsqrt eigTop pinvO alpha k f1 nn M Yc idxs).2.1
          (pcovrGo eigTh rsqrt eigTop pinvO alpha k f1 nn M Yc idxs).2.2 := by
  intro f1
  induction f1 with
  | zero => intro f2 nn M Yc idxs; simp [pcovrGo]
  | succ f ih =>
      intro f2 nn M Yc idxs
      have h1 : f + 1 + f2 = (f + f2) + 1 := by omega
      have h2 : nn + (f + 1) = nn + 1 + f := by omega
      rw [h1]
      by_cases hb : idxs.length ≤ nn
      · rcases hct : get_Ct eigTh rsqrt M Yc alpha (1 / 1000000) with u | Ct
        · cases u
          rw [pcovrGo_error_stops eigTh rsqrt eigTop pinvO alpha k (f + f2) nn
            M Yc idxs hb hct,
            pcovrGo_error_stops eigTh rsqrt eigTop pinvO alpha k f nn
            M Yc idxs hb hct]
          exact (pcovrGo_error_absorb eigTh rsqrt eigTop pinvO alpha k f2
            (nn + (f + 1)) M Yc idxs (hb.trans (by omega))
            ((get_Ct_error_iff eigTh rsqrt M Yc alpha (1 / 1000000)).mp
              hct)).symm
        · rw [pcovrGo_step_ok eigTh rsqrt eigTop pinvO alpha k (f + f2) nn
            M Yc Ct idxs hb hct,
            pcovrGo_step_ok eigTh rsqrt eigTop pinvO alpha k f nn
            M Yc Ct idxs hb hct, ih f2 (nn + 1) _ _ _, h2]
      · rw [pcovrGo_step_replay eigTh rsqrt eigTop pinvO alpha k (f + f2) nn
          M Yc idxs hb,
          pcovrGo_step_replay eigTh rsqrt eigTop pinvO alpha k f nn
          M Yc idxs hb, ih f2 (nn + 1) _ _ _, h2]

/-! ## List and deflation-sequence utilities for the replay analysis -/

theorem take_succ_getD (l : List ℕ) (nn : ℕ) (h : nn < l.length) :
    l.take (nn + 1) = l.take nn ++ [l.getD nn 0] := by
  rw [List.take_succ, List.getElem?_eq_getElem h, List.getD_eq_getElem l 0 h]
  rfl

theorem getD_drop_eq (l : List ℕ) (n z : ℕ) (h : n + z < l.length) :
    (l.drop n).getD z 0 = l.getD (n + z) 0 := by
  have hz : z < (l.drop n).length := by
    rw [List.length_drop]
    omega
  rw [List.getD_eq_getElem _ 0 hz, List.getD_eq_getElem _ 0 h]
  exact List.getElem_drop l

theorem deflSeq_append (M : Mat) (l l' : List ℕ) :
    deflSeq M (l ++ l') = deflSeq (deflSeq M l) l' := by
  simp [deflSeq, List.foldl_append]

theorem deflSeq_colZero_own :
    ∀ (l : List ℕ) (M : Mat), ∀ kk < l.length,
      colZero (deflSeq M l) (l.getD kk 0) := by
  intro l
  induction l with
  | nil => intro M kk hkk; simp at hkk
  | cons j rest ih =>
      intro M kk hkk
      rcases kk with _ | kk'
      · rw [List.getD_cons_zero, deflSeq_cons]
        exact deflSeq_colZero_preserve rest (deflate M j) j
          (deflate_colZero_self M j)
      · rw [List.getD_cons_succ, deflSeq_cons]
        exact ih (deflate M j) kk' (by simpa using hkk)

end CURPy

namespace CURPy

theorem deflSeq_singleton (M : Mat) (j : ℕ) : deflSeq M [j] = deflate M j := rfl

theorem getD_take_eq (l : List ℕ) (m z : ℕ) (hz : z < m) (hlt : z < l.length) :
    (l.take m).getD z 0 = l.getD z 0 := by
  have hz' : z < (l.take m).length := by
    rw [List.length_take]
    omega
  rw [List.getD_eq_getElem _ 0 hz', List.getD_eq_getElem _ 0 hlt]
  exact List.getElem_take l

theorem Mat.colsAt_r (M : Mat) (l : List ℕ) : (M.colsAt l).r = M.r := rfl

theorem Mat.colsAt_c (M : Mat) (l : List ℕ) : (M.colsAt l).c = l.length := rfl

theorem update_eq_sub (pinvO : Mat → Mat) (Yc X_c : Mat) :
    update pinvO Yc X_c =
      Yc.sub (((X_c.mul (pinvO (X_c.transpose.mul X_c))).mul
        X_c.transpose).mul Yc) := rfl

theorem update_r (pinvO : Mat → Mat) (Yc X_c : Mat) :
    (update pinvO Yc X_c).r = Yc.r := rfl

theorem update_c (pinvO : Mat → Mat) (Yc X_c : Mat) :
    (update pinvO Yc X_c).c = Yc.c := rfl

theorem update_clipped (pinvO : Mat → Mat) (Yc X_c : Mat) :
    (update pinvO Yc X_c).Clipped := Mat.sub_clipped _ _

/-- A regression update sends the difference to the reference property
matrix by a correction in the column span of `X_c`; orthogonality of a
vector family to the columns of `X_c` and to the old difference is
therefore preserved. -/
theorem update_perp (pinvO : Mat → Mat) (r : ℕ) (F Yc Y₀ X_c : Mat)
    (hYc : Yc.Clipped) (hY₀ : Y₀.Clipped) (hcc : Yc.c = Y₀.c)
    (hXr : X_c.r = r) (hYr : Yc.r = r)
    (hperpX : ∀ i z, ∑ t ∈ Finset.range r, F.e t i * X_c.e t z = 0)
    (hperpY : ∀ i j, ∑ t ∈ Finset.range r,
      F.e t i * (Yc.e t j - Y₀.e t j) = 0) :
    ∀ i j, ∑ t ∈ Finset.range r,
      F.e t i * ((update pinvO Yc X_c).e t j - Y₀.e t j) = 0 := by
  intro i j
  have hperp1 : ∀ z, ∑ t ∈ Finset.range r,
      F.e t i * (X_c.mul (pinvO (X_c.transpose.mul X_c))).e t z = 0 :=
    fun z => perp_mul_right r F X_c i hXr (hperpX i) _ z
  have hperp2 : ∀ z, ∑ t ∈ Finset.range r,
      F.e t i * ((X_c.mul (pinvO (X_c.transpose.mul X_c))).mul
        X_c.transpose).e t z = 0 :=
    fun z => perp_mul_right r F (X_c.mul (pinvO (X_c.transpose.mul X_c))) i
      (by rw [Mat.mul_r, hXr]) hperp1 _ z
  have hperpVY : ∑ t ∈ Finset.range r,
      F.e t i * (((X_c.mul (pinvO (X_c.transpose.mul X_c))).mul
        X_c.transpose).mul Yc).e t j = 0 :=
    perp_mul_right r F
      ((X_c.mul (pinvO (X_c.transpose.mul X_c))).mul X_c.transpose) i
      (by rw [Mat.mul_r, Mat.mul_r, hXr]) hperp2 Yc j
  have hentry : ∀ t ∈ Finset.range r,
      F.e t i * ((update pinvO Yc X_c).e t j - Y₀.e t j) =
        F.e t i * (Yc.e t j - Y₀.e t j) -
          F.e t i * (((X_c.mul (pinvO (X_c.transpose.mul X_c))).mul
            X_c.transpose).mul Yc).e t j := by
    intro t ht
    rw [update_eq_sub]
    by_cases hj : j < Yc.c
    · rw [Mat.sub_e _ _ t j (by rw [hYr]; exact Finset.mem_range.mp ht) hj]
      ring
    · rw [Mat.sub_clipped _ _ t j (fun hc => hj hc.2),
        hYc t j (fun hc => hj hc.2),
        hY₀ t j (fun hc => hj (hcc ▸ hc.2)),
        Mat.mul_clipped _ _ t j (fun hc => hj hc.2)]
      ring
  rw [Finset.sum_congr rfl hentry, Finset.sum_sub_distrib, hperpY i j]
  rw [hperpVY]
  ring

end CURPy

namespace CURPy

/-- During a replay round, every column that the regression update reads
(the selected columns of the partially re-deflated working copy) is
orthogonal to every column of the fully deflated matrix: the columns
already re-deflated are zero, the ones still to come are future
deflation pivots. -/
theorem replay_colsAt_perp (M₀ : Mat) (hM₀ : M₀.Clipped) (lfull : List ℕ)
    (nn : ℕ) (hnn : nn < lfull.length) :
    ∀ i z, ∑ t ∈ Finset.range M₀.r,
      (deflSeq M₀ lfull).e t i *
        ((deflSeq M₀ (lfull.take (nn + 1))).colsAt lfull).e t z = 0 := by
  intro i z
  have hr : (deflSeq M₀ (lfull.take (nn + 1))).r = M₀.r :=
    deflSeq_r (lfull.take (nn + 1)) M₀
  by_cases hz : z < lfull.length
  · by_cases hz2 : z < nn + 1
    · have hlen : z < (lfull.take (nn + 1)).length := by
        rw [List.length_take]
        omega
      have hcol : colZero (deflSeq M₀ (lfull.take (nn + 1)))
          (lfull.getD z 0) := by
        have hown := deflSeq_colZero_own (lfull.take (nn + 1)) M₀ z hlen
        rwa [getD_take_eq lfull (nn + 1) z hz2 hz] at hown
      refine Finset.sum_eq_zero fun t ht => ?_
      rw [Mat.colsAt_e _ lfull t z (by rw [hr]; exact Finset.mem_range.mp ht)
        hz, hcol t]
      ring
    · have hML : deflSeq M₀ lfull =
          deflSeq (deflSeq M₀ (lfull.take (nn + 1))) (lfull.drop (nn + 1)) := by
        conv_lhs => rw [← List.take_append_drop (nn + 1) lfull]
        rw [deflSeq_append]
      have hpivot : lfull.getD z 0 =
          (lfull.drop (nn + 1)).getD (z - (nn + 1)) 0 := by
        rw [getD_drop_eq lfull (nn + 1) (z - (nn + 1)) (by omega)]
        congr 1
        omega
      have hbound : z - (nn + 1) < (lfull.drop (nn + 1)).length := by
        rw [List.length_drop]
        omega
      have hfut := deflSeq_perp_future (lfull.drop (nn + 1))
        (deflSeq M₀ (lfull.take (nn + 1)))
        (deflSeq_clipped (lfull.take (nn + 1)) M₀ hM₀)
        (z - (nn + 1)) hbound i
      rw [hr] at hfut
      rw [hML]
      refine Eq.trans (Finset.sum_congr rfl fun t ht => ?_) hfut
      rw [Mat.colsAt_e _ lfull t z (by rw [hr]; exact Finset.mem_range.mp ht)
        hz, hpivot]
  · refine Finset.sum_eq_zero fun t ht => ?_
    have hzero : ((deflSeq M₀ (lfull.take (nn + 1))).colsAt lfull).e t z = 0 :=
      Mat.of_clipped _ _ _ t z (fun hc => hz hc.2)
    rw [hzero]
    ring

/-- Replaying an already-selected index list from fresh copies reaches
the same fully deflated working copy as the original run, with a
property-matrix state that differs from the never-updated original one
only orthogonally to every column of that working copy. -/
theorem pcovrGo_replay_inv (eigTh : Mat → Except Unit (List (ℚ × (ℕ → ℚ))))
    (rsqrt : ℚ → ℚ) (eigTop : Mat → ℕ → ℕ → ℚ) (pinvO : Mat → Mat)
    (alpha : ℚ) (k : ℕ) (M₀ Y₀ : Mat) (lfull : List ℕ)
    (hM₀ : M₀.Clipped) (hY₀ : Y₀.Clipped) (hMr : M₀.r = Y₀.r) :
    ∀ (d fuel nn : ℕ) (Yc : Mat),
      nn + d = lfull.length → d ≤ fuel →
      Yc.Clipped → Yc.r = Y₀.r → Yc.c = Y₀.c →
      (∀ i j, ∑ t ∈ Finset.range M₀.r,
        (deflSeq M₀ lfull).e t i * (Yc.e t j - Y₀.e t j) = 0) →
      ∃ Yc', pcovrGo eigTh rsqrt eigTop pinvO alpha k fuel nn
          (deflSeq M₀ (lfull.take nn)) Yc lfull =
        pcovrGo eigTh rsqrt eigTop pinvO alpha k (fuel - d) lfull.length
          (deflSeq M₀ lfull) Yc' lfull ∧
        Yc'.Clipped ∧ Yc'.r = Y₀.r ∧ Yc'.c = Y₀.c ∧
        (∀ i j, ∑ t ∈ Finset.range M₀.r,
          (deflSeq M₀ lfull).e t i * (Yc'.e t j - Y₀.e t j) = 0) := by
  intro d
  induction d with
  | zero =>
      intro fuel nn Yc hlen _ hYc hrr hcc hperp
      have hnn : nn = lfull.length := by omega
      subst hnn
      rw [List.take_length]
      exact ⟨Yc, by rw [Nat.sub_zero], hYc, hrr, hcc, hperp⟩
  | succ d ih =>
      intro fuel nn Yc hlen hfuel hYc hrr hcc hperp
      obtain ⟨f, rfl⟩ : ∃ f, fuel = f + 1 := ⟨fuel - 1, by omega⟩
      have hnn : nn < lfull.length := by omega
      have hnotfresh : ¬ lfull.length ≤ nn := by omega
      rw [pcovrGo_step_replay eigTh rsqrt eigTop pinvO alpha k f nn _ Yc lfull
        hnotfresh]
      have hgd : (lfull.take nn).length ≤ nn := by
        rw [List.length_take]
        omega
      have hMnew : deflate (deflSeq M₀ (lfull.take nn)) (lfull.getD nn 0) =
          deflSeq M₀ (lfull.take (nn + 1)) := by
        rw [take_succ_getD lfull nn hnn, deflSeq_append, deflSeq_singleton]
      rw [hMnew]
      have hYr : Yc.r = M₀.r := by rw [hrr, ← hMr]
      have hXr : ((deflSeq M₀ (lfull.take (nn + 1))).colsAt lfull).r = M₀.r :=
        deflSeq_r (lfull.take (nn + 1)) M₀
      have hperpX := replay_colsAt_perp M₀ hM₀ lfull nn hnn
      have hperp' := update_perp pinvO M₀.r (deflSeq M₀ lfull) Yc Y₀
        ((deflSeq M₀ (lfull.take (nn + 1))).colsAt lfull) hYc hY₀
        (by rw [hcc]) hXr hYr hperpX hperp
      obtain ⟨Yc', heq, h1, h2, h3, h4⟩ := ih f (nn + 1)
        (update pinvO Yc ((deflSeq M₀ (lfull.take (nn + 1))).colsAt lfull))
        (by omega) (by omega) (update_clipped pinvO Yc _)
        (by rw [update_r, hrr]) (by rw [update_c, hcc]) hperp'
      refine ⟨Yc', ?_, h1, h2, h3, h4⟩
      rw [heq]
      have harith : f + 1 - (d + 1) = f - d := by omega
      rw [harith]

end CURPy

namespace CURPy

/-- Resumability of `pcovr_select`: selecting `n` indices and resuming
to `n + m` gives the same list as asking for `n + m` directly, and the
first call's list is the `n`-prefix of the direct call's list.  The
conformability hypothesis `A.r = Y.r` is the shape numpy requires of
the regression `Y -= H·Y`. -/
theorem pcovr_resumable (eigTh : Mat → Except Unit (List (ℚ × (ℕ → ℚ))))
    (rsqrt : ℚ → ℚ) (eigTop : Mat → ℕ → ℕ → ℚ) (pinvO : Mat → Mat)
    (A Y : Mat) (alpha : ℚ) (k n m : ℕ) (hAr : A.r = Y.r) :
    pcovr_select eigTh rsqrt eigTop pinvO A (n + m) Y alpha k
        (some (pcovr_select eigTh rsqrt eigTop pinvO A n Y alpha k none)) =
      pcovr_select eigTh rsqrt eigTop pinvO A (n + m) Y alpha k none ∧
    (pcovr_select eigTh rsqrt eigTop pinvO A (n + m) Y alpha k none).take n =
      pcovr_select eigTh rsqrt eigTop pinvO A n Y alpha k none := by
  simp only [pcovr_select, Option.getD_some, Option.getD_none]
  rcases hres : pcovrGo eigTh rsqrt eigTop pinvO alpha k n 0 A.copy Y.copy []
    with ⟨Mf, Yf, lone⟩
  dsimp only
  have hfr := pcovrGo_fresh_run eigTh rsqrt eigTop pinvO alpha k n 0 A.copy
    Y.copy [] (Mf, Yf, lone) hres rfl (Mat.copy_clipped A)
    (Mat.copy_clipped Y) (by intro kk hkk; simp at hkk)
  obtain ⟨hY1, hM1, hcz, hclip, -, hle, hor⟩ := hfr
  dsimp only at hY1 hM1 hcz hclip hle hor
  rw [List.drop_zero] at hM1
  subst hY1
  subst hM1
  have hle' : lone.length ≤ n := by omega
  have hsplit := pcovrGo_split eigTh rsqrt eigTop pinvO alpha k n m 0 A.copy
    Y.copy []
  rw [hres] at hsplit
  dsimp only at hsplit
  rw [Nat.zero_add] at hsplit
  have hMr : A.copy.r = Y.copy.r := by rw [Mat.copy_r, Mat.copy_r, hAr]
  have hrep := pcovrGo_replay_inv eigTh rsqrt eigTop pinvO alpha k A.copy
    Y.copy lone (Mat.copy_clipped A) (Mat.copy_clipped Y) hMr lone.length
    (n + m) 0 Y.copy (by omega) (by omega) (Mat.copy_clipped Y) rfl rfl
    (by intro i j; simp)
  simp only [List.take_zero, deflSeq_nil] at hrep
  obtain ⟨Yc', hreq, hYc'clip, hYc'r, hYc'c, hYc'perp⟩ := hrep
  rcases hor with hfull | herr
  · have hLn : lone.length = n := by omega
    rw [hLn] at hreq
    have harith : n + m - n = m := by omega
    rw [harith] at hreq
    have hagree := pcovrGo_Y_agree eigTh rsqrt eigTop pinvO alpha k m n
      (deflSeq A.copy lone) Yc' Y.copy lone hLn
      (deflSeq_clipped lone A.copy (Mat.copy_clipped A)) hYc'clip
      (Mat.copy_clipped Y) (by rw [hYc'r]) (by rw [hYc'c])
      (by rw [deflSeq_r, hYc'r]; exact hMr) hcz
      (by intro i j; rw [deflSeq_r]; exact hYc'perp i j)
    refine ⟨?_, ?_⟩
    · rw [hreq, hagree, hsplit]
    · rw [hsplit]
      obtain ⟨new, hnew⟩ := pcovrGo_extends eigTh rsqrt eigTop pinvO alpha k
        m n (deflSeq A.copy lone) Y.copy lone
      rw [hnew, ← hLn, List.take_left]
  · have habs1 := pcovrGo_error_absorb eigTh rsqrt eigTop pinvO alpha k m n
      (deflSeq A.copy lone) Y.copy lone hle' herr
    have habs2 := pcovrGo_error_absorb eigTh rsqrt eigTop pinvO alpha k
      (n + m - lone.length) lone.length (deflSeq A.copy lone) Yc' lone
      (le_refl _) herr
    refine ⟨?_, ?_⟩
    · rw [hreq, habs2, hsplit, habs1]
    · rw [hsplit, habs1]
      dsimp only
      exact List.take_of_length_le hle'

end CURPy

namespace CURPy

/-- Resumability of `svd_select`: the working copy has no property-state,
so a resumed run replays the recorded pivots and then continues exactly
as the direct run does. -/
theorem svd_resumable (O : Mat → ℕ → ℕ → ℚ) (A : Mat) (n m k : ℕ) :
    svd_select O A (n + m) k (some (svd_select O A n k none)) =
      svd_select O A (n + m) k none ∧
    (svd_select O A (n + m) k none).take n = svd_select O A n k none := by
  simp only [svd_select, Option.getD_some, Option.getD_none]
  rcases hres : svdGo k O n 0 A.copy [] with ⟨Mf, lone⟩
  dsimp only
  have hsplit := svdGo_split k O n m 0 A.copy []
  rw [hres] at hsplit
  dsimp only at hsplit
  rw [Nat.zero_add] at hsplit
  have hreplay := svdGo_replay_with_final k O n 0 A.copy [] Mf lone hres
    (by simp)
  have hsplit2 := svdGo_split k O n m 0 A.copy lone
  rw [hreplay] at hsplit2
  dsimp only at hsplit2
  rw [Nat.zero_add] at hsplit2
  have hlen : lone.length = n := by
    have hl := svdGo_length_fresh k O n 0 A.copy [] rfl
    rw [hres] at hl
    dsimp only at hl
    omega
  refine ⟨?_, ?_⟩
  · rw [hsplit2, hsplit]
  · rw [hsplit]
    obtain ⟨new, hnew⟩ := svdGo_extends k O m n Mf lone
    rw [hnew, ← hlen, List.take_left]

theorem svd_select_SelExtends (O : Mat → ℕ → ℕ → ℚ) (k : ℕ) :
    SelExtends (fun A n idxs₀ => svd_select O A n k idxs₀) := by
  intro M n l
  obtain ⟨new, hnew⟩ := svdGo_extends k O n 0 M.copy l
  exact ⟨new, by simp only [svd_select, Option.getD_some]; exact hnew⟩

theorem pcovr_select_SelExtends (eigTh : Mat → Except Unit (List (ℚ × (ℕ → ℚ))))
    (rsqrt : ℚ → ℚ) (eigTop : Mat → ℕ → ℕ → ℚ) (pinvO : Mat → Mat)
    (Y : Mat) (alpha : ℚ) (k : ℕ) :
    SelExtends (fun A n idxs₀ =>
      pcovr_select eigTh rsqrt eigTop pinvO A n Y alpha k idxs₀) := by
  intro M n l
  obtain ⟨new, hnew⟩ := pcovrGo_extends eigTh rsqrt eigTop pinvO alpha k n 0
    M.copy Y.copy l
  exact ⟨new, by simp only [pcovr_select, Option.getD_some]; exact hnew⟩

/-- A recomputation via `compute_idx` extends both caches: the column
list resumes from the cached `idx_c`; the row list is the fixed full
range in feature-select mode, a resumed selection on `Aᵀ` when not
symmetric, and the (extending) column result when symmetric. -/
theorem recompute_cache_extends (self : CUR) (n_c n_r : ℕ)
    (hsel : SelExtends self.select)
    (hfs : self.fs = true →
      self.idx_r = none ∨ self.idx_r = some (List.range self.A.c))
    (hsym : self.symmetric = true → self.fs = false →
      self.idx_r = self.idx_c) :
    CacheExtends self.idx_c (some (self.compute_idx n_c n_r).1) ∧
      CacheExtends self.idx_r (some (self.compute_idx n_c n_r).2) := by
  simp only [CUR.compute_idx]
  constructor
  · intro l hl
    obtain ⟨new, hnew⟩ := hsel self.A n_c l
    refine ⟨new, ?_⟩
    rw [hl, hnew]
  · intro l hl
    by_cases hf : self.fs
    · rcases hfs hf with hnone | hrange
      · rw [hl] at hnone
        exact absurd hnone (by simp)
      · rw [hl] at hrange
        have hlr : l = List.range self.A.c := Option.some.inj hrange
        refine ⟨[], ?_⟩
        rw [if_pos hf, hlr, List.append_nil]
    · by_cases hs : self.symmetric
      · have hir := hsym hs (by simpa using hf)
        have hcl : self.idx_c = some l := by rw [← hir]; exact hl
        obtain ⟨new, hnew⟩ := hsel self.A n_c l
        refine ⟨new, ?_⟩
        rw [if_neg hf, if_neg (by simpa using hs), hcl, hnew]
      · obtain ⟨new, hnew⟩ := hsel self.A.transpose n_r l
        refine ⟨new, ?_⟩
        rw [if_neg hf, if_pos (by simpa using hs), hl, hnew]

/-- `CUR.compute` only ever extends the caches, provided the strategy
resumes, a feature-select instance carries the row cache that mode
itself writes, and a symmetric instance carries equal caches (both
facts hold for every state the class itself produces). -/
theorem compute_cache_extends (pinvO : Mat → Mat) (self : CUR) (n_c : ℕ)
    (n_opt : Option ℕ) (t : Mat × Mat × Mat) (self' : CUR)
    (hsel : SelExtends self.select)
    (hfs : self.fs = true →
      self.idx_r = none ∨ self.idx_r = some (List.range self.A.c))
    (hsym : self.symmetric = true → self.fs = false →
      self.idx_r = self.idx_c)
    (h : CUR.compute pinvO self n_c n_opt = .ok (t, self')) :
    CacheExtends self.idx_c self'.idx_c ∧
      CacheExtends self.idx_r self'.idx_r := by
  simp only [CUR.compute] at h
  rcases hn : (if self.fs then some self.A.c
      else if self.symmetric then some (n_opt.getD n_c) else n_opt)
    with _ | n_r
  · rw [hn] at h
    exact absurd h (by simp)
  · rw [hn] at h
    dsimp only at h
    rw [Except.ok.injEq, Prod.mk.injEq] at h
    obtain ⟨-, hself⟩ := h
    by_cases h1 : (self.idx_c.isNone || (!self.fs && self.idx_r.isNone)) = true
    · rw [if_pos h1] at hself
      dsimp only at hself
      subst hself
      exact recompute_cache_extends self n_c n_r hsel hfs hsym
    · rw [if_neg h1] at hself
      by_cases h2 : ((self.idx_c.getD []).length < n_c ||
          (self.idx_r.getD []).length < n_r) = true
      · rw [if_pos h2] at hself
        dsimp only at hself
        subst hself
        exact recompute_cache_extends self n_c n_r hsel hfs hsym
      · rw [if_neg h2] at hself
        dsimp only at hself
        subst hself
        exact ⟨fun l hl => ⟨[], by rw [hl, List.append_nil]⟩,
          fun l hl => ⟨[], by rw [hl, List.append_nil]⟩⟩

end CURPy

namespace CURPy

/-- **C2**: selecting `n` indices and then requesting `n + m` while
resuming from the first result yields the same full list as a single
call requesting `n + m` directly, and that direct list's first `n`
indices are exactly the first call's result — for `svd_select` with any
svd oracle, and for `pcovr_select` with any eigensolver, square-root and
pseudoinverse oracles on conformable inputs (`A.r = Y.r`); moreover
`CUR.compute` only ever extends the cached index lists (for any
resuming strategy and any instance whose caches satisfy the class's own
invariants: a feature-select row cache holds the full range, a
symmetric instance's caches coincide). -/
theorem C2_resumability (O : Mat → ℕ → ℕ → ℚ)
    (eigTh : Mat → Except Unit (List (ℚ × (ℕ → ℚ)))) (rsqrt : ℚ → ℚ)
    (eigTop : Mat → ℕ → ℕ → ℚ) (pinvO : Mat → Mat) (A Y : Mat)
    (alpha : ℚ) (k n m : ℕ) (hAr : A.r = Y.r) :
    (svd_select O A (n + m) k (some (svd_select O A n k none)) =
        svd_select O A (n + m) k none ∧
      (svd_select O A (n + m) k none).take n = svd_select O A n k none) ∧
    (pcovr_select eigTh rsqrt eigTop pinvO A (n + m) Y alpha k
        (some (pcovr_select eigTh rsqrt eigTop pinvO A n Y alpha k none)) =
        pcovr_select eigTh rsqrt eigTop pinvO A (n + m) Y alpha k none ∧
      (pcovr_select eigTh rsqrt eigTop pinvO A (n + m) Y alpha k none).take n =
        pcovr_select eigTh rsqrt eigTop pinvO A n Y alpha k none) ∧
    (∀ (self : CUR) (n_c : ℕ) (n_opt : Option ℕ) (t : Mat × Mat × Mat)
        (self' : CUR), SelExtends self.select →
      (self.fs = true →
        self.idx_r = none ∨ self.idx_r = some (List.range self.A.c)) →
      (self.symmetric = true → self.fs = false →
        self.idx_r = self.idx_c) →
      CUR.compute pinvO self n_c n_opt = .ok (t, self') →
      CacheExtends self.idx_c self'.idx_c ∧
        CacheExtends self.idx_r self'.idx_r) :=
  ⟨svd_resumable O A n m k,
   pcovr_resumable eigTh rsqrt eigTop pinvO A Y alpha k n m hAr,
   fun self n_c n_opt t self' hsel hfs hsym h =>
     compute_cache_extends pinvO self n_c n_opt t self' hsel hfs hsym h⟩

/-- Witness for C2 at the concrete diagonal instance `A4 = diag(2,1)`
with `Y8` the 2×1 all-ones property matrix and the concrete oracles. -/
theorem C2_resumability_witness :
    A4.r = Y8.r ∧
    ((svd_select O4 A4 (1 + 1) 1 (some (svd_select O4 A4 1 1 none)) =
        svd_select O4 A4 (1 + 1) 1 none ∧
      (svd_select O4 A4 (1 + 1) 1 none).take 1 = svd_select O4 A4 1 1 none) ∧
    (pcovr_select eig8 rsqrt4 eigTop8 pinv0 A4 (1 + 1) Y8 1 1
        (some (pcovr_select eig8 rsqrt4 eigTop8 pinv0 A4 1 Y8 1 1 none)) =
        pcovr_select eig8 rsqrt4 eigTop8 pinv0 A4 (1 + 1) Y8 1 1 none ∧
      (pcovr_select eig8 rsqrt4 eigTop8 pinv0 A4 (1 + 1) Y8 1 1 none).take 1 =
        pcovr_select eig8 rsqrt4 eigTop8 pinv0 A4 1 Y8 1 1 none) ∧
    (∀ (self : CUR) (n_c : ℕ) (n_opt : Option ℕ) (t : Mat × Mat × Mat)
        (self' : CUR), SelExtends self.select →
      (self.fs = true →
        self.idx_r = none ∨ self.idx_r = some (List.range self.A.c)) →
      (self.symmetric = true → self.fs = false →
        self.idx_r = self.idx_c) →
      CUR.compute pinv0 self n_c n_opt = .ok (t, self') →
      CacheExtends self.idx_c self'.idx_c ∧
        CacheExtends self.idx_r self'.idx_r)) :=
  ⟨rfl, C2_resumability O4 eig8 rsqrt4 eigTop8 pinv0 A4 Y8 1 1 1 1 rfl⟩

end CURPy

namespace CURPy

/-- **C6 (counterexample).**  On a feature-select instance whose
symmetry flag is set (which the buggy constructor does for every
square matrix), `compute` returns `A_r = A` (the full-matrix copy), not
`A_cᵀ` as the claim's "A_c transposed in symmetric mode" requires: the
code tests `symmetric and not fs` before `fs`, so feature-select wins
over symmetric.  Here `A_r` is 2×2 while `A_cᵀ` is 1×2. -/
theorem C6_counterexample_symmetric_fs_Ar :
    cur6.symmetric = true ∧
    CUR.compute pinv0 cur6 1 none =
      .ok ((cur6.A.colsAt [0],
            ((pinv0 (cur6.A.colsAt [0])).mul cur6.A).mul
              (pinv0 cur6.A.copy),
            cur6.A.copy), cur6) ∧
    cur6.A.copy ≠ (cur6.A.colsAt [0]).transpose := by
  refine ⟨rfl, rfl, fun h => ?_⟩
  have h2 : (2 : ℕ) = 1 := congrArg Mat.r h
  omega

/-- **C6 (amended).**  Whenever `compute(n_c, n_opt)` succeeds, its
triple is `(A_c, S, A_r)` with `A_c = A` restricted to the selected
column list (the freshly computed `compute_idx` pair, or the cached
lists truncated to the requested counts), `S = pinv(A_c)·A·pinv(A_r)`,
and `A_r` given by the code's precedence: `A_cᵀ` when symmetric AND not
feature-select, the full matrix `A` in feature-select mode (even when
the symmetric flag is set — this is where the claim's sequential
reading fails), and `A` restricted to the selected row list
otherwise. -/
theorem C6_compute_triple_amended (pinvO : Mat → Mat) (self : CUR)
    (n_c : ℕ) (n_opt : Option ℕ) (t : Mat × Mat × Mat) (self' : CUR)
    (h : CUR.compute pinvO self n_c n_opt = .ok (t, self')) :
    ∃ (n_r : ℕ) (sel_c sel_r : List ℕ),
      ((sel_c = (self.compute_idx n_c n_r).1 ∧
          sel_r = (self.compute_idx n_c n_r).2) ∨
        (sel_c = (self.idx_c.getD []).take n_c ∧
          sel_r = (self.idx_r.getD []).take n_r)) ∧
      t.1 = self.A.colsAt sel_c ∧
      t.2.2 = (if self.symmetric = true ∧ self.fs = false then
          t.1.transpose
        else if self.fs = true then self.A.copy
        else self.A.rowsAt sel_r) ∧
      t.2.1 = ((pinvO t.1).mul self.A).mul (pinvO t.2.2) := by
  simp only [CUR.compute] at h
  rcases hn : (if self.fs then some self.A.c
      else if self.symmetric then some (n_opt.getD n_c) else n_opt)
    with _ | n_r
  · rw [hn] at h
    exact absurd h (by simp)
  · rw [hn] at h
    dsimp only at h
    rw [Except.ok.injEq, Prod.mk.injEq] at h
    obtain ⟨ht, -⟩ := h
    subst ht
    refine ⟨n_r, ?_⟩
    by_cases hc1 : (self.idx_c.isNone || (!self.fs && self.idx_r.isNone)) = true
    · rw [if_pos hc1]
      refine ⟨(self.compute_idx n_c n_r).1, (self.compute_idx n_c n_r).2,
        Or.inl ⟨rfl, rfl⟩, rfl, ?_, rfl⟩
      cases hsym : self.symmetric <;> cases hfs : self.fs <;>
        simp [hsym, hfs]
    · rw [if_neg hc1]
      by_cases hc2 : ((self.idx_c.getD []).length < n_c ||
          (self.idx_r.getD []).length < n_r) = true
      · rw [if_pos hc2]
        refine ⟨(self.compute_idx n_c n_r).1, (self.compute_idx n_c n_r).2,
          Or.inl ⟨rfl, rfl⟩, rfl, ?_, rfl⟩
        cases hsym : self.symmetric <;> cases hfs : self.fs <;>
          simp [hsym, hfs]
      · rw [if_neg hc2]
        refine ⟨(self.idx_c.getD []).take n_c, (self.idx_r.getD []).take n_r,
          Or.inr ⟨rfl, rfl⟩, rfl, ?_, rfl⟩
        cases hsym : self.symmetric <;> cases hfs : self.fs <;>
          simp [hsym, hfs]

/-- Witness for C6 (amended) at the concrete instance `cur6` with the
all-zero pseudoinverse oracle. -/
theorem C6_compute_triple_amended_witness :
    CUR.compute pinv0 cur6 1 none =
      .ok ((cur6.A.colsAt [0],
            ((pinv0 (cur6.A.colsAt [0])).mul cur6.A).mul
              (pinv0 cur6.A.copy),
            cur6.A.copy), cur6) ∧
    (∃ (n_r : ℕ) (sel_c sel_r : List ℕ),
      ((sel_c = (cur6.compute_idx 1 n_r).1 ∧
          sel_r = (cur6.compute_idx 1 n_r).2) ∨
        (sel_c = (cur6.idx_c.getD []).take 1 ∧
          sel_r = (cur6.idx_r.getD []).take n_r)) ∧
      cur6.A.colsAt [0] = cur6.A.colsAt sel_c ∧
      cur6.A.copy = (if cur6.symmetric = true ∧ cur6.fs = false then
          (cur6.A.colsAt [0]).transpose
        else if cur6.fs = true then cur6.A.copy
        else cur6.A.rowsAt sel_r) ∧
      ((pinv0 (cur6.A.colsAt [0])).mul cur6.A).mul (pinv0 cur6.A.copy) =
        ((pinv0 (cur6.A.colsAt [0])).mul cur6.A).mul
          (pinv0 cur6.A.copy)) :=
  ⟨rfl, C6_compute_triple_amended pinv0 cur6 1 none _ cur6 rfl⟩

end CURPy

namespace CURPy

/-! ## Frobenius-geometry toolkit for the loss analysis -/

theorem sum_range_ext (f : ℕ → ℚ) (a b : ℕ) (ha : ∀ t, a ≤ t → f t = 0)
    (hb : ∀ t, b ≤ t → f t = 0) :
    ∑ t ∈ Finset.range a, f t = ∑ t ∈ Finset.range b, f t := by
  rcases le_total a b with hab | hab
  · exact Finset.sum_subset (Finset.range_subset.mpr hab)
      (fun t _ ht => ha t (by simpa using ht))
  · exact (Finset.sum_subset (Finset.range_subset.mpr hab)
      (fun t _ ht => hb t (by simpa using ht))).symm

theorem Mat.transpose_transpose (M : Mat) (hM : M.Clipped) :
    M.transpose.transpose = M := by
  refine Mat.ext_of _ _ rfl rfl ?_
  funext i j
  by_cases hij : i < M.r ∧ j < M.c
  · rw [Mat.transpose_e M.transpose i j hij.1 hij.2,
      Mat.transpose_e M j i hij.2 hij.1]
  · rw [hM i j hij, Mat.transpose_clipped M.transpose i j (by simpa using hij)]

theorem Mat.transpose_mul (X Y : Mat) (hX : X.Clipped) (hY : Y.Clipped) :
    (X.mul Y).transpose = Y.transpose.mul X.transpose := by
  refine Mat.ext_of _ _ rfl rfl ?_
  funext i j
  by_cases hij : i < Y.c ∧ j < X.r
  · rw [Mat.transpose_e (X.mul Y) i j hij.1 hij.2,
      Mat.mul_e X Y j i hij.2 hij.1,
      Mat.mul_e Y.transpose X.transpose i j (by simpa using hij.1)
        (by simpa using hij.2)]
    have hterm : ∀ t, Y.transpose.e i t * X.transpose.e t j =
        X.e j t * Y.e t i := by
      intro t
      by_cases htY : t < Y.r
      · rw [Mat.transpose_e Y i t hij.1 htY]
        by_cases htX : t < X.c
        · rw [Mat.transpose_e X t j htX hij.2]
          ring
        · rw [Mat.transpose_clipped X t j (fun hc => htX hc.1),
            hX j t (fun hc => htX hc.2)]
          ring
      · rw [Mat.transpose_clipped Y i t (fun hc => htY hc.2),
          hY t i (fun hc => htY hc.1)]
        ring
    rw [Finset.sum_congr rfl fun t _ => hterm t]
    simp only [Mat.transpose_c]
    refine sum_range_ext _ _ _ ?_ ?_
    · intro t ht
      rw [hX j t (fun hc => absurd hc.2 (by omega))]
      ring
    · intro t ht
      rw [hY t i (fun hc => absurd hc.1 (by omega))]
      ring
  · rw [Mat.transpose_clipped (X.mul Y) i j (by simpa using hij),
      Mat.mul_clipped Y.transpose X.transpose i j (by simpa using hij)]

theorem frobInner_self (X : Mat) : frobInner X X = X.frobSq := by
  unfold frobInner Mat.frobSq
  exact Finset.sum_congr rfl fun i _ => Finset.sum_congr rfl fun j _ =>
    (pow_two (X.e i j)).symm ▸ rfl

theorem frobInner_comm (X Y : Mat) (hr : Y.r = X.r) (hc : Y.c = X.c) :
    frobInner X Y = frobInner Y X := by
  unfold frobInner
  rw [hr, hc]
  exact Finset.sum_congr rfl fun i _ => Finset.sum_congr rfl fun j _ =>
    mul_comm _ _

theorem frobSq_nonneg (X : Mat) : 0 ≤ X.frobSq := by
  unfold Mat.frobSq
  refine Finset.sum_nonneg fun i _ => Finset.sum_nonneg fun j _ => ?_
  positivity

theorem frobSq_sub_expand (X Y : Mat) (hr : Y.r = X.r) (hc : Y.c = X.c) :
    (X.sub Y).frobSq = X.frobSq - 2 * frobInner X Y + Y.frobSq := by
  unfold Mat.frobSq frobInner
  simp only [Mat.sub_r, Mat.sub_c]
  rw [hr, hc]
  have hterm : ∀ i ∈ Finset.range X.r, ∀ j ∈ Finset.range X.c,
      (X.sub Y).e i j ^ 2 =
        X.e i j ^ 2 - 2 * (X.e i j * Y.e i j) + Y.e i j ^ 2 := by
    intro i hi j hj
    rw [Mat.sub_e X Y i j (Finset.mem_range.mp hi) (Finset.mem_range.mp hj)]
    ring
  rw [Finset.sum_congr rfl fun i hi => Finset.sum_congr rfl (hterm i hi)]
  simp only [Finset.sum_add_distrib, Finset.sum_sub_distrib, Finset.mul_sum]

end CURPy

namespace CURPy

theorem sum3_comm (a b c : ℕ) (f : ℕ → ℕ → ℕ → ℚ) :
    ∑ i ∈ Finset.range a, ∑ j ∈ Finset.range b, ∑ k ∈ Finset.range c,
      f i j k =
    ∑ k ∈ Finset.range c, ∑ j ∈ Finset.range b, ∑ i ∈ Finset.range a,
      f i j k := by
  have hswap : ∀ i : ℕ,
      (∑ j ∈ Finset.range b, ∑ k ∈ Finset.range c, f i j k) =
        ∑ k ∈ Finset.range c, ∑ j ∈ Finset.range b, f i j k :=
    fun i => Finset.sum_comm
  rw [Finset.sum_congr rfl fun i _ => hswap i, Finset.sum_comm]
  exact Finset.sum_congr rfl fun k _ => Finset.sum_comm

/-- Frobenius adjoint of left multiplication. -/
theorem frobInner_adjoint_left (P M₁ M₂ : Mat) (h1 : M₁.r = P.c)
    (hc : M₂.c = M₁.c) :
    frobInner (P.mul M₁) M₂ = frobInner M₁ (P.transpose.mul M₂) := by
  have hL : frobInner (P.mul M₁) M₂ =
      ∑ i ∈ Finset.range P.r, ∑ j ∈ Finset.range M₁.c,
        ∑ k ∈ Finset.range P.c, P.e i k * M₁.e k j * M₂.e i j := by
    unfold frobInner
    simp only [Mat.mul_r, Mat.mul_c]
    refine Finset.sum_congr rfl fun i hi => Finset.sum_congr rfl fun j hj => ?_
    rw [Mat.mul_e P M₁ i j (Finset.mem_range.mp hi) (Finset.mem_range.mp hj),
      Finset.sum_mul]
  have hR : frobInner M₁ (P.transpose.mul M₂) =
      ∑ k ∈ Finset.range P.c, ∑ j ∈ Finset.range M₁.c,
        ∑ i ∈ Finset.range P.r, P.e i k * M₁.e k j * M₂.e i j := by
    unfold frobInner
    rw [h1]
    refine Finset.sum_congr rfl fun k hk => Finset.sum_congr rfl fun j hj => ?_
    rw [Mat.mul_e P.transpose M₂ k j (Finset.mem_range.mp hk)
      (hc ▸ Finset.mem_range.mp hj), Finset.mul_sum]
    simp only [Mat.transpose_c]
    refine Finset.sum_congr rfl fun i hi => ?_
    rw [Mat.transpose_e P k i (Finset.mem_range.mp hk)
      (Finset.mem_range.mp hi)]
    ring
  rw [hL, hR, sum3_comm]

/-- Frobenius adjoint of right multiplication. -/
theorem frobInner_adjoint_right (Q M₁ M₂ : Mat) (h1 : M₁.c = Q.r)
    (h2 : M₂.c = Q.c) (h3 : M₂.r = M₁.r) :
    frobInner (M₁.mul Q) M₂ = frobInner M₁ (M₂.mul Q.transpose) := by
  have hL : frobInner (M₁.mul Q) M₂ =
      ∑ i ∈ Finset.range M₁.r, ∑ j ∈ Finset.range Q.c,
        ∑ k ∈ Finset.range M₁.c, M₁.e i k * Q.e k j * M₂.e i j := by
    unfold frobInner
    simp only [Mat.mul_r, Mat.mul_c]
    refine Finset.sum_congr rfl fun i hi => Finset.sum_congr rfl fun j hj => ?_
    rw [Mat.mul_e M₁ Q i j (Finset.mem_range.mp hi) (Finset.mem_range.mp hj),
      Finset.sum_mul]
  have hR : frobInner M₁ (M₂.mul Q.transpose) =
      ∑ i ∈ Finset.range M₁.r, ∑ k ∈ Finset.range M₁.c,
        ∑ j ∈ Finset.range Q.c, M₁.e i k * Q.e k j * M₂.e i j := by
    unfold frobInner
    refine Finset.sum_congr rfl fun i hi => Finset.sum_congr rfl fun k hk => ?_
    rw [Mat.mul_e M₂ Q.transpose i k (h3 ▸ Finset.mem_range.mp hi)
      (show k < Q.r from h1 ▸ Finset.mem_range.mp hk), h2, Finset.mul_sum]
    refine Finset.sum_congr rfl fun j hj => ?_
    rw [Mat.transpose_e Q j k (Finset.mem_range.mp hj)
      (h1 ▸ Finset.mem_range.mp hk)]
    ring
  rw [hL, hR]
  exact Finset.sum_congr rfl fun i _ => Finset.sum_comm

end CURPy

namespace CURPy

/-- Left multiplication by an orthogonal projector collapses in the
Frobenius inner product: `⟨PM₁, PM₂⟩ = ⟨PM₁, M₂⟩`. -/
theorem frobInner_proj_left (P M₁ M₂ : Mat) (n : ℕ) (hP : SymIdem P n)
    (h1 : M₁.r = n) (h2 : M₂.r = n) (hc : M₂.c = M₁.c) :
    frobInner (P.mul M₁) (P.mul M₂) = frobInner (P.mul M₁) M₂ := by
  obtain ⟨hPr, hPc, hPcl, hPt, hPP⟩ := hP
  have hred : P.transpose.mul (P.mul M₂) = P.mul M₂ := by
    rw [← Mat.mul_assoc P.transpose P M₂ hPcl, hPt, hPP]
  have hA1 : frobInner (P.mul M₁) (P.mul M₂) =
      frobInner M₁ (P.transpose.mul (P.mul M₂)) :=
    frobInner_adjoint_left P M₁ (P.mul M₂) (by rw [h1, hPc])
      (by rw [Mat.mul_c, hc])
  have hA2 : frobInner (P.mul M₁) M₂ =
      frobInner M₁ (P.transpose.mul M₂) :=
    frobInner_adjoint_left P M₁ M₂ (by rw [h1, hPc]) hc
  rw [hA1, hA2, hred, hPt]

/-- Right multiplication by an orthogonal projector collapses in the
Frobenius inner product: `⟨M₁Q, M₂Q⟩ = ⟨M₁Q, M₂⟩`. -/
theorem frobInner_proj_right (Q M₁ M₂ : Mat) (m : ℕ) (hQ : SymIdem Q m)
    (h1 : M₁.c = m) (h2 : M₂.c = m) (hr : M₂.r = M₁.r) :
    frobInner (M₁.mul Q) (M₂.mul Q) = frobInner (M₁.mul Q) M₂ := by
  obtain ⟨hQr, hQc, hQcl, hQt, hQQ⟩ := hQ
  have hred : (M₂.mul Q).mul Q.transpose = M₂.mul Q := by
    rw [Mat.mul_assoc M₂ Q Q.transpose hQcl, hQt, hQQ]
  have hA1 : frobInner (M₁.mul Q) (M₂.mul Q) =
      frobInner M₁ ((M₂.mul Q).mul Q.transpose) :=
    frobInner_adjoint_right Q M₁ (M₂.mul Q) (by rw [h1, hQr])
      (by rw [Mat.mul_c]) (by rw [Mat.mul_r, hr])
  have hA2 : frobInner (M₁.mul Q) M₂ =
      frobInner M₁ (M₂.mul Q.transpose) :=
    frobInner_adjoint_right Q M₁ M₂ (by rw [h1, hQr]) (by rw [h2, hQc]) hr
  rw [hA1, hA2, hred, hQt]

/-- If `⟨Y, Y⟩ = ⟨Y, X⟩` (i.e. `Y` is an orthogonal-projection image of
`X`), the residual satisfies the Pythagorean identity and `Y` is no
larger than `X`. -/
theorem frobInner_defect (X Y : Mat) (hr : Y.r = X.r) (hc : Y.c = X.c)
    (hYY : frobInner Y Y = frobInner Y X) :
    (X.sub Y).frobSq = X.frobSq - Y.frobSq ∧ Y.frobSq ≤ X.frobSq := by
  have hXY : frobInner X Y = Y.frobSq := by
    rw [frobInner_comm X Y hr hc, ← hYY, frobInner_self]
  have hexp := frobSq_sub_expand X Y hr hc
  rw [hXY] at hexp
  have hsub : (X.sub Y).frobSq = X.frobSq - Y.frobSq := by
    rw [hexp]
    ring
  refine ⟨hsub, ?_⟩
  have hnn := frobSq_nonneg (X.sub Y)
  rw [hsub] at hnn
  linarith

theorem frobSq_proj_left_le (P M : Mat) (n : ℕ) (hP : SymIdem P n)
    (hM : M.r = n) : (P.mul M).frobSq ≤ M.frobSq := by
  have hcol := frobInner_proj_left P M M n hP hM hM rfl
  have hdef := frobInner_defect M (P.mul M) (by rw [Mat.mul_r, hP.1, hM])
    (by rw [Mat.mul_c]) hcol
  exact hdef.2

theorem frobSq_proj_right_le (Q M : Mat) (m : ℕ) (hQ : SymIdem Q m)
    (hM : M.c = m) : (M.mul Q).frobSq ≤ M.frobSq := by
  have hcol := frobInner_proj_right Q M M m hQ hM hM rfl
  have hdef := frobInner_defect M (M.mul Q) (by rw [Mat.mul_r])
    (by rw [Mat.mul_c, hQ.2.1, hM]) hcol
  exact hdef.2

end CURPy

namespace CURPy

/-- `A_c·pinv(A_c)` is an orthogonal projector when `pinv` satisfies the
Penrose equations. -/
theorem symIdem_MP_left (M P : Mat) (hM : M.Clipped) (h : MPInv M P) :
    SymIdem (M.mul P) M.r := by
  obtain ⟨hr, hc, hcl, h1, h2, h3, h4⟩ := h
  refine ⟨rfl, by rw [Mat.mul_c, hc], Mat.mul_clipped _ _, h3, ?_⟩
  rw [← Mat.mul_assoc (M.mul P) M P hM, h1]

/-- `pinv(A_r)·A_r` is an orthogonal projector when `pinv` satisfies the
Penrose equations. -/
theorem symIdem_MP_right (M P : Mat) (hM : M.Clipped) (h : MPInv M P) :
    SymIdem (P.mul M) M.c := by
  obtain ⟨hr, hc, hcl, h1, h2, h3, h4⟩ := h
  refine ⟨by rw [Mat.mul_r, hr], rfl, Mat.mul_clipped _ _, h4, ?_⟩
  rw [Mat.mul_assoc P M (P.mul M) hM, ← Mat.mul_assoc M P M hcl, h1]

/-- The reconstruction `A_c·(S·A_r)` regrouped as a two-sided projector
compression `(P·A)·Q`. -/
theorem rec_regroup (A A_c A_r PV RV : Mat) (hA : A.Clipped)
    (hPV : PV.Clipped) (hRV : RV.Clipped) :
    A_c.mul ((((PV.mul A)).mul RV).mul A_r) =
      (((A_c.mul PV).mul A).mul (RV.mul A_r)) := by
  rw [Mat.mul_assoc (PV.mul A) RV A_r hRV,
    ← Mat.mul_assoc A_c (PV.mul A) (RV.mul A_r) (Mat.mul_clipped _ _),
    ← Mat.mul_assoc A_c PV A hPV]

/-- Pythagorean identity for the two-sided compression. -/
theorem rec_defect (A P Q : Mat) (hA : A.Clipped) (hP : SymIdem P A.r)
    (hQ : SymIdem Q A.c) :
    (A.sub ((P.mul A).mul Q)).frobSq = A.frobSq - ((P.mul A).mul Q).frobSq := by
  have hstep1 : frobInner ((P.mul A).mul Q) ((P.mul A).mul Q) =
      frobInner ((P.mul A).mul Q) (P.mul A) :=
    frobInner_proj_right Q (P.mul A) (P.mul A) A.c hQ (by rw [Mat.mul_c])
      (by rw [Mat.mul_c]) rfl
  have hassoc : (P.mul A).mul Q = P.mul (A.mul Q) := Mat.mul_assoc P A Q hA
  have hstep2 : frobInner (P.mul (A.mul Q)) (P.mul A) =
      frobInner (P.mul (A.mul Q)) A :=
    frobInner_proj_left P (A.mul Q) A A.r hP (by rw [Mat.mul_r]) rfl
      (by rw [Mat.mul_c, hQ.2.1])
  have hYY : frobInner ((P.mul A).mul Q) ((P.mul A).mul Q) =
      frobInner ((P.mul A).mul Q) A := by
    rw [hstep1, hassoc, hstep2]
  have hdef := frobInner_defect A ((P.mul A).mul Q)
    (by rw [Mat.mul_r, Mat.mul_r, hP.1]) (by rw [Mat.mul_c, hQ.2.1]) hYY
  exact hdef.1

/-- Nested projectors compress no worse: the coarser reconstruction has
no larger Frobenius mass. -/
theorem rec_nested_le (A P₁ P₂ Q₁ Q₂ : Mat) (hA : A.Clipped)
    (hP₁ : SymIdem P₁ A.r) (hP₂ : SymIdem P₂ A.r)
    (hQ₁ : SymIdem Q₁ A.c) (hQ₂ : SymIdem Q₂ A.c)
    (hP12 : P₁.mul P₂ = P₁) (hQ21 : Q₂.mul Q₁ = Q₁) :
    ((P₁.mul A).mul Q₁).frobSq ≤ ((P₂.mul A).mul Q₂).frobSq := by
  have hrec : (P₁.mul ((P₂.mul A).mul Q₂)).mul Q₁ = (P₁.mul A).mul Q₁ := by
    rw [← Mat.mul_assoc P₁ (P₂.mul A) Q₂ (Mat.mul_clipped _ _),
      ← Mat.mul_assoc P₁ P₂ A hP₂.2.2.1, hP12,
      Mat.mul_assoc (P₁.mul A) Q₂ Q₁ hQ₂.2.2.1, hQ21]
  rw [← hrec]
  have hstep1 : ((P₁.mul ((P₂.mul A).mul Q₂)).mul Q₁).frobSq ≤
      (P₁.mul ((P₂.mul A).mul Q₂)).frobSq :=
    frobSq_proj_right_le Q₁ _ A.c hQ₁ (by rw [Mat.mul_c, Mat.mul_c, hQ₂.2.1])
  have hstep2 : (P₁.mul ((P₂.mul A).mul Q₂)).frobSq ≤
      ((P₂.mul A).mul Q₂).frobSq :=
    frobSq_proj_left_le P₁ _ A.r hP₁ (by rw [Mat.mul_r, Mat.mul_r, hP₂.1])
  exact hstep1.trans hstep2

/-- The core monotonicity: refining both projectors can only shrink the
residual. -/
theorem loss_core_mono (A P₁ P₂ Q₁ Q₂ : Mat) (hA : A.Clipped)
    (hP₁ : SymIdem P₁ A.r) (hP₂ : SymIdem P₂ A.r)
    (hQ₁ : SymIdem Q₁ A.c) (hQ₂ : SymIdem Q₂ A.c)
    (hP12 : P₁.mul P₂ = P₁) (hQ21 : Q₂.mul Q₁ = Q₁) :
    (A.sub ((P₂.mul A).mul Q₂)).frobSq ≤ (A.sub ((P₁.mul A).mul Q₁)).frobSq := by
  rw [rec_defect A P₂ Q₂ hA hP₂ hQ₂, rec_defect A P₁ Q₁ hA hP₁ hQ₁]
  have := rec_nested_le A P₁ P₂ Q₁ Q₂ hA hP₁ hP₂ hQ₁ hQ₂ hP12 hQ21
  linarith

end CURPy

namespace CURPy

theorem inclE_clipped (k m : ℕ) : (inclE k m).Clipped := Mat.of_clipped _ _ _

/-- Taking one fewer column from the same cached list is a
right-multiplication by the column-inclusion matrix. -/
theorem colsAt_take_succ_incl (A : Mat) (hA : A.Clipped) (L : List ℕ)
    (n : ℕ) (hn : n + 1 ≤ L.length) :
    A.colsAt (L.take n) = (A.colsAt (L.take (n + 1))).mul (inclE (n + 1) n) := by
  have hlen : (L.take n).length = n := by
    rw [List.length_take]
    omega
  have hlen1 : (L.take (n + 1)).length = n + 1 := by
    rw [List.length_take]
    omega
  refine Mat.ext_of _ _ rfl hlen ?_
  funext i j
  by_cases hij : i < A.r ∧ j < n
  · rw [Mat.colsAt_e A (L.take n) i j hij.1 (by rw [hlen]; exact hij.2),
      getD_take_eq L n j hij.2 (by omega)]
    rw [Mat.mul_e (A.colsAt (L.take (n + 1))) (inclE (n + 1) n) i j hij.1
      hij.2]
    have hcrw : (A.colsAt (L.take (n + 1))).c = n + 1 := hlen1
    rw [hcrw]
    rw [Finset.sum_eq_single j]
    · rw [Mat.colsAt_e A (L.take (n + 1)) i j hij.1
        (by rw [hlen1]; omega),
        getD_take_eq L (n + 1) j (by omega) (by omega)]
      have h1 : (inclE (n + 1) n).e j j = 1 := by
        simp [inclE, Mat.of_e, hij.2, Nat.lt_succ_of_lt hij.2]
      rw [h1, mul_one]
    · intro t ht htj
      have h0 : (inclE (n + 1) n).e t j = 0 := by
        simp only [inclE, Mat.of_e]
        rw [if_pos ⟨Finset.mem_range.mp ht, hij.2⟩, if_neg htj]
      rw [h0, mul_zero]
    · intro hj
      exact absurd (Finset.mem_range.mpr (by omega)) hj
  · have h0 : (A.colsAt (L.take n)).e i j = 0 :=
      Mat.of_clipped _ _ _ i j
        (fun hcon => hij ⟨hcon.1, by rw [← hlen]; exact hcon.2⟩)
    have h0' : ((A.colsAt (L.take (n + 1))).mul (inclE (n + 1) n)).e i j = 0 :=
      Mat.mul_clipped _ _ i j (fun hc => hij ⟨hc.1, hc.2⟩)
    rw [h0, h0']

/-- Column-subspace nesting makes the associated projectors nested:
`P₁·P₂ = P₁` when the columns of `X₁` are (a selection of) columns of
`X₂`. -/
theorem proj_nested (X₁ X₂ E V₁ V₂ : Mat) (hsub : X₁ = X₂.mul E)
    (hX₁ : X₁.Clipped) (hX₂ : X₂.Clipped)
    (h₁ : MPInv X₁ V₁) (h₂ : MPInv X₂ V₂) :
    (X₁.mul V₁).mul (X₂.mul V₂) = X₁.mul V₁ := by
  have ha : (X₂.mul V₂).mul X₁ = X₁ := by
    rw [hsub, ← Mat.mul_assoc (X₂.mul V₂) X₂ E hX₂, h₂.2.2.2.1]
  have hb : (X₂.mul V₂).mul (X₁.mul V₁) = X₁.mul V₁ := by
    rw [← Mat.mul_assoc (X₂.mul V₂) X₁ V₁ hX₁, ha]
  have hP₁cl : (X₁.mul V₁).Clipped := Mat.mul_clipped _ _
  have hP₂cl : (X₂.mul V₂).Clipped := Mat.mul_clipped _ _
  calc (X₁.mul V₁).mul (X₂.mul V₂)
      = (X₁.mul V₁).transpose.mul (X₂.mul V₂).transpose := by
        rw [h₁.2.2.2.2.2.1, h₂.2.2.2.2.2.1]
    _ = ((X₂.mul V₂).mul (X₁.mul V₁)).transpose :=
        (Mat.transpose_mul _ _ hP₂cl hP₁cl).symm
    _ = (X₁.mul V₁).transpose := by rw [hb]
    _ = X₁.mul V₁ := h₁.2.2.2.2.2.1

/-- Row-side analogue for the symmetric mode (`A_r = A_cᵀ`): the
projectors `pinv(X_iᵀ)·X_iᵀ` are nested the other way round. -/
theorem projR_nested (X₁ X₂ E W₁ W₂ : Mat) (hsub : X₁ = X₂.mul E)
    (hX₂ : X₂.Clipped) (hE : E.Clipped)
    (h₁ : MPInv X₁.transpose W₁) (h₂ : MPInv X₂.transpose W₂) :
    (W₂.mul X₂.transpose).mul (W₁.mul X₁.transpose) = W₁.mul X₁.transpose := by
  have hXt : X₁.transpose = E.transpose.mul X₂.transpose := by
    rw [hsub, Mat.transpose_mul X₂ E hX₂ hE]
  have ha : X₂.transpose.mul (W₂.mul X₂.transpose) = X₂.transpose := by
    rw [← Mat.mul_assoc X₂.transpose W₂ X₂.transpose h₂.2.2.1, h₂.2.2.2.1]
  have hb : X₁.transpose.mul (W₂.mul X₂.transpose) = X₁.transpose := by
    rw [hXt, Mat.mul_assoc E.transpose X₂.transpose (W₂.mul X₂.transpose)
      (Mat.transpose_clipped X₂), ha]
  have hc : (W₁.mul X₁.transpose).mul (W₂.mul X₂.transpose) =
      W₁.mul X₁.transpose := by
    rw [Mat.mul_assoc W₁ X₁.transpose (W₂.mul X₂.transpose)
      (Mat.transpose_clipped X₁), hb]
  have hQ₁cl : (W₁.mul X₁.transpose).Clipped := Mat.mul_clipped _ _
  have hQ₂cl : (W₂.mul X₂.transpose).Clipped := Mat.mul_clipped _ _
  calc (W₂.mul X₂.transpose).mul (W₁.mul X₁.transpose)
      = (W₂.mul X₂.transpose).transpose.mul
          (W₁.mul X₁.transpose).transpose := by
        rw [h₁.2.2.2.2.2.2, h₂.2.2.2.2.2.2]
    _ = ((W₁.mul X₁.transpose).mul (W₂.mul X₂.transpose)).transpose :=
        (Mat.transpose_mul _ _ hQ₁cl hQ₂cl).symm
    _ = (W₁.mul X₁.transpose).transpose := by rw [hc]
    _ = W₁.mul X₁.transpose := h₁.2.2.2.2.2.2

end CURPy

namespace CURPy

/-- `CUR.compute` on an instance whose caches already cover the
requested counts: the cached lists are truncated and the instance is
unchanged. -/
theorem compute_cached (pinvO : Mat → Mat) (self : CUR) (n_c n_r' : ℕ)
    (n_opt : Option ℕ) (L_c L_r : List ℕ)
    (hn : (if self.fs then some self.A.c
      else if self.symmetric then some (n_opt.getD n_c) else n_opt) =
      some n_r')
    (hidc : self.idx_c = some L_c) (hidr : self.idx_r = some L_r)
    (hlc : ¬ L_c.length < n_c) (hlr : ¬ L_r.length < n_r') :
    CUR.compute pinvO self n_c n_opt =
      .ok ((self.A.colsAt (L_c.take n_c),
            ((pinvO (self.A.colsAt (L_c.take n_c))).mul self.A).mul
              (pinvO (arMode self (self.A.colsAt (L_c.take n_c))
                (L_r.take n_r'))),
            arMode self (self.A.colsAt (L_c.take n_c)) (L_r.take n_r')),
        self) := by
  simp only [CUR.compute]
  rw [hn]
  dsimp only
  rw [hidc, hidr]
  rw [if_neg (by simp)]
  rw [if_neg (by simp [hlc, hlr])]
  simp only [Option.getD_some]
  rfl

/-- `CUR.loss` on such an instance. -/
theorem loss_cached (pinvO : Mat → Mat) (rsqrt : ℚ → ℚ) (self : CUR)
    (n_c n_r' : ℕ) (n_opt : Option ℕ) (L_c L_r : List ℕ)
    (hn : (if self.fs then some self.A.c
      else if self.symmetric then some (n_opt.getD n_c) else n_opt) =
      some n_r')
    (hidc : self.idx_c = some L_c) (hidr : self.idx_r = some L_r)
    (hlc : ¬ L_c.length < n_c) (hlr : ¬ L_r.length < n_r') :
    CUR.loss pinvO rsqrt self n_c n_opt =
      .ok (rsqrt ((self.A.sub
          ((self.A.colsAt (L_c.take n_c)).mul
            ((((pinvO (self.A.colsAt (L_c.take n_c))).mul self.A).mul
                (pinvO (arMode self (self.A.colsAt (L_c.take n_c))
                  (L_r.take n_r')))).mul
              (arMode self (self.A.colsAt (L_c.take n_c))
                (L_r.take n_r'))))).frobSq) /
        rsqrt self.A.frobSq, self) := by
  simp only [CUR.loss]
  rw [compute_cached pinvO self n_c n_r' n_opt L_c L_r hn hidc hidr hlc hlr]

end CURPy

namespace CURPy

theorem arMode_clipped (self : CUR) (A_c : Mat) (sel : List ℕ) :
    (arMode self A_c sel).Clipped := by
  unfold arMode
  split_ifs
  · exact Mat.transpose_clipped _
  · exact Mat.copy_clipped _
  · exact Mat.of_clipped _ _ _

theorem arMode_fs (self : CUR) (A_c : Mat) (sel : List ℕ)
    (hf : self.fs = true) : arMode self A_c sel = self.A.copy := by
  unfold arMode
  rw [if_neg (by simp [hf]), if_pos hf]

theorem arMode_symm (self : CUR) (A_c : Mat) (sel : List ℕ)
    (hs : self.symmetric = true) (hf : self.fs = false) :
    arMode self A_c sel = A_c.transpose := by
  unfold arMode
  rw [if_pos (by simp [hs, hf])]

theorem arMode_rows (self : CUR) (A_c : Mat) (sel : List ℕ)
    (hf : self.fs = false) (hs : self.symmetric = false) :
    arMode self A_c sel = self.A.rowsAt sel := by
  unfold arMode
  rw [if_neg (by simp [hs]), if_neg (by simp [hf])]

theorem arMode_c (self : CUR) (A_c : Mat) (sel : List ℕ)
    (hAcr : A_c.r = self.A.r)
    (hsq : self.symmetric = true → self.A.r = self.A.c) :
    (arMode self A_c sel).c = self.A.c := by
  unfold arMode
  split_ifs with h1 h2
  · rw [Mat.transpose_c, hAcr]
    simp only [Bool.and_eq_true] at h1
    exact hsq h1.1
  · rfl
  · rfl

/-- **C7.**  On any instance whose caches already cover the requested
counts (`n_c + 1` columns, and the mode's effective row count: the full
`A.c` in feature-select mode, the requested `n_r` otherwise), with a
pseudoinverse oracle satisfying the Penrose equations on the four
factor matrices involved and a monotone nonnegative square-root
oracle, both `loss` calls succeed (leaving the instance unchanged) and
the relative reconstruction error is non-increasing in the requested
column count: `loss(n_c + 1) ≤ loss(n_c)`. -/
theorem C7_loss_monotone (pinvO : Mat → Mat) (rsqrt : ℚ → ℚ) (self : CUR)
    (n_c n_r : ℕ) (L_c L_r : List ℕ)
    (hmono : ∀ a b : ℚ, 0 ≤ a → a ≤ b → rsqrt a ≤ rsqrt b)
    (hpos : ∀ a : ℚ, 0 ≤ a → 0 ≤ rsqrt a)
    (hA : self.A.Clipped)
    (hsquare : self.symmetric = true → self.A.r = self.A.c)
    (hidc : self.idx_c = some L_c) (hidr : self.idx_r = some L_r)
    (hlc : n_c + 1 ≤ L_c.length)
    (hlr : (if self.fs then self.A.c else n_r) ≤ L_r.length)
    (hMPc1 : MPInv (self.A.colsAt (L_c.take n_c))
      (pinvO (self.A.colsAt (L_c.take n_c))))
    (hMPc2 : MPInv (self.A.colsAt (L_c.take (n_c + 1)))
      (pinvO (self.A.colsAt (L_c.take (n_c + 1)))))
    (hMPr1 : MPInv (arMode self (self.A.colsAt (L_c.take n_c))
        (L_r.take (if self.fs then self.A.c else n_r)))
      (pinvO (arMode self (self.A.colsAt (L_c.take n_c))
        (L_r.take (if self.fs then self.A.c else n_r)))))
    (hMPr2 : MPInv (arMode self (self.A.colsAt (L_c.take (n_c + 1)))
        (L_r.take (if self.fs then self.A.c else n_r)))
      (pinvO (arMode self (self.A.colsAt (L_c.take (n_c + 1)))
        (L_r.take (if self.fs then self.A.c else n_r))))) :
    ∃ v₁ v₂ : ℚ,
      CUR.loss pinvO rsqrt self n_c (some n_r) = .ok (v₁, self) ∧
      CUR.loss pinvO rsqrt self (n_c + 1) (some n_r) = .ok (v₂, self) ∧
      v₂ ≤ v₁ := by
  have hn1 : (if self.fs then some self.A.c
      else if self.symmetric then some ((some n_r).getD n_c)
      else some n_r) = some (if self.fs then self.A.c else n_r) := by
    cases hf : self.fs <;> cases hs : self.symmetric <;> simp [hf, hs]
  have hn2 : (if self.fs then some self.A.c
      else if self.symmetric then some ((some n_r).getD (n_c + 1))
      else some n_r) = some (if self.fs then self.A.c else n_r) := by
    cases hf : self.fs <;> cases hs : self.symmetric <;> simp [hf, hs]
  have hlr' : ¬ L_r.length < (if self.fs then self.A.c else n_r) := by
    omega
  have hl1 := loss_cached pinvO rsqrt self n_c
    (if self.fs then self.A.c else n_r) (some n_r) L_c L_r hn1 hidc hidr
    (by omega) hlr'
  have hl2 := loss_cached pinvO rsqrt self (n_c + 1)
    (if self.fs then self.A.c else n_r) (some n_r) L_c L_r hn2 hidc hidr
    (by omega) hlr'
  refine ⟨_, _, hl1, hl2, ?_⟩
  set A1 := self.A.colsAt (L_c.take n_c) with hA1def
  set A2 := self.A.colsAt (L_c.take (n_c + 1)) with hA2def
  set R1 := arMode self A1 (L_r.take (if self.fs then self.A.c else n_r))
    with hR1def
  set R2 := arMode self A2 (L_r.take (if self.fs then self.A.c else n_r))
    with hR2def
  have hA1cl : A1.Clipped := Mat.of_clipped _ _ _
  have hA2cl : A2.Clipped := Mat.of_clipped _ _ _
  have hR1cl : R1.Clipped := arMode_clipped _ _ _
  have hR2cl : R2.Clipped := arMode_clipped _ _ _
  have hre2 : A2.mul ((((pinvO A2).mul self.A).mul (pinvO R2)).mul R2) =
      ((A2.mul (pinvO A2)).mul self.A).mul ((pinvO R2).mul R2) :=
    rec_regroup self.A A2 R2 (pinvO A2) (pinvO R2) hA hMPc2.2.2.1
      hMPr2.2.2.1
  have hre1 : A1.mul ((((pinvO A1).mul self.A).mul (pinvO R1)).mul R1) =
      ((A1.mul (pinvO A1)).mul self.A).mul ((pinvO R1).mul R1) :=
    rec_regroup self.A A1 R1 (pinvO A1) (pinvO R1) hA hMPc1.2.2.1
      hMPr1.2.2.1
  rw [hre1, hre2]
  have hP1 : SymIdem (A1.mul (pinvO A1)) self.A.r :=
    symIdem_MP_left A1 (pinvO A1) hA1cl hMPc1
  have hP2 : SymIdem (A2.mul (pinvO A2)) self.A.r :=
    symIdem_MP_left A2 (pinvO A2) hA2cl hMPc2
  have hR1c : R1.c = self.A.c := by
    rw [hR1def]
    exact arMode_c self A1 _ rfl hsquare
  have hR2c : R2.c = self.A.c := by
    rw [hR2def]
    exact arMode_c self A2 _ rfl hsquare
  have hQ1 : SymIdem ((pinvO R1).mul R1) self.A.c := by
    have h := symIdem_MP_right R1 (pinvO R1) hR1cl hMPr1
    rwa [hR1c] at h
  have hQ2 : SymIdem ((pinvO R2).mul R2) self.A.c := by
    have h := symIdem_MP_right R2 (pinvO R2) hR2cl hMPr2
    rwa [hR2c] at h
  have hsub : A1 = A2.mul (inclE (n_c + 1) n_c) :=
    colsAt_take_succ_incl self.A hA L_c n_c hlc
  have hP12 : (A1.mul (pinvO A1)).mul (A2.mul (pinvO A2)) =
      A1.mul (pinvO A1) :=
    proj_nested A1 A2 (inclE (n_c + 1) n_c) (pinvO A1) (pinvO A2) hsub
      hA1cl hA2cl hMPc1 hMPc2
  have hQ21 : ((pinvO R2).mul R2).mul ((pinvO R1).mul R1) =
      (pinvO R1).mul R1 := by
    by_cases hf : self.fs = true
    · have h1 : R1 = self.A.copy := by
        rw [hR1def]
        exact arMode_fs self A1 _ hf
      have h2 : R2 = self.A.copy := by
        rw [hR2def]
        exact arMode_fs self A2 _ hf
      rw [h1, h2]
      have h := symIdem_MP_right self.A.copy (pinvO self.A.copy)
        (Mat.copy_clipped _) (by rw [← h1]; exact hMPr1)
      exact h.2.2.2.2
    · have hf' : self.fs = false := by simpa using hf
      by_cases hs : self.symmetric = true
      · have h1 : R1 = A1.transpose := by
          rw [hR1def]
          exact arMode_symm self A1 _ hs hf'
        have h2 : R2 = A2.transpose := by
          rw [hR2def]
          exact arMode_symm self A2 _ hs hf'
        rw [h1] at hMPr1
        rw [h2] at hMPr2
        rw [h1, h2]
        exact projR_nested A1 A2 (inclE (n_c + 1) n_c) (pinvO A1.transpose)
          (pinvO A2.transpose) hsub hA2cl (inclE_clipped _ _) hMPr1 hMPr2
      · have hs' : self.symmetric = false := by simpa using hs
        have h12 : R1 = R2 := by
          rw [hR1def, hR2def, arMode_rows self A1 _ hf' hs',
            arMode_rows self A2 _ hf' hs']
        rw [h12]
        have h := symIdem_MP_right R2 (pinvO R2) hR2cl hMPr2
        exact h.2.2.2.2
  have hcore := loss_core_mono self.A (A1.mul (pinvO A1))
    (A2.mul (pinvO A2)) ((pinvO R1).mul R1) ((pinvO R2).mul R2) hA hP1 hP2
    hQ1 hQ2 hP12 hQ21
  have hnum : rsqrt ((self.A.sub (((A2.mul (pinvO A2)).mul self.A).mul
      ((pinvO R2).mul R2))).frobSq) ≤
      rsqrt ((self.A.sub (((A1.mul (pinvO A1)).mul self.A).mul
      ((pinvO R1).mul R1))).frobSq) :=
    hmono _ _ (frobSq_nonneg _) hcore
  have hD : 0 ≤ rsqrt self.A.frobSq := hpos _ (frobSq_nonneg _)
  rcases eq_or_lt_of_le hD with hD0 | hDpos
  · rw [← hD0, div_zero, div_zero]
  · exact (div_le_div_iff_of_pos_right hDpos).mpr hnum

end CURPy

namespace CURPy

/-- The Penrose equations at the empty (`1×0`) column block of the C7
witness instance. -/
theorem MPInv_cur7_empty :
    MPInv (cur7.A.colsAt ([0].take 0))
      (pinvC7 (cur7.A.colsAt ([0].take 0))) := by
  refine ⟨rfl, rfl, Mat.of_clipped _ _ _, ?_, ?_, ?_, ?_⟩
  · refine Mat.eq_of_eqv _ _ (Mat.mul_clipped _ _) (Mat.of_clipped _ _ _)
      ⟨rfl, rfl, ?_⟩
    intro i hi j hj
    exact absurd hj (Nat.not_lt_zero j)
  · refine Mat.eq_of_eqv _ _ (Mat.mul_clipped _ _) (Mat.of_clipped _ _ _)
      ⟨rfl, rfl, ?_⟩
    intro i hi j hj
    exact absurd hi (Nat.not_lt_zero i)
  · refine Mat.eq_of_eqv _ _ (Mat.transpose_clipped _) (Mat.mul_clipped _ _)
      ⟨rfl, rfl, ?_⟩
    intro i hi j hj
    have hi0 : i = 0 := Nat.lt_one_iff.mp hi
    have hj0 : j = 0 := Nat.lt_one_iff.mp hj
    subst hi0
    subst hj0
    norm_num [Mat.transpose, Mat.mul, Mat.of, Mat.colsAt, cur7, A7, pinvC7,
      Finset.sum_range_zero]
  · refine Mat.eq_of_eqv _ _ (Mat.transpose_clipped _) (Mat.mul_clipped _ _)
      ⟨rfl, rfl, ?_⟩
    intro i hi j hj
    exact absurd hi (Nat.not_lt_zero i)

/-- The Penrose equations at the `1×1` column block `[[2]]` of the C7
witness instance. -/
theorem MPInv_cur7_col :
    MPInv (cur7.A.colsAt ([0].take 1))
      (pinvC7 (cur7.A.colsAt ([0].take 1))) := by
  refine ⟨rfl, rfl, Mat.of_clipped _ _ _, ?_, ?_, ?_, ?_⟩
  · refine Mat.eq_of_eqv _ _ (Mat.mul_clipped _ _) (Mat.of_clipped _ _ _)
      ⟨rfl, rfl, ?_⟩
    intro i hi j hj
    have hi0 : i = 0 := Nat.lt_one_iff.mp hi
    have hj0 : j = 0 := Nat.lt_one_iff.mp hj
    subst hi0
    subst hj0
    norm_num [Mat.mul, Mat.of, Mat.colsAt, cur7, A7, pinvC7,
      Finset.sum_range_succ, Finset.sum_range_zero, List.getD]
  · refine Mat.eq_of_eqv _ _ (Mat.mul_clipped _ _) (Mat.of_clipped _ _ _)
      ⟨rfl, rfl, ?_⟩
    intro i hi j hj
    have hi0 : i = 0 := Nat.lt_one_iff.mp hi
    have hj0 : j = 0 := Nat.lt_one_iff.mp hj
    subst hi0
    subst hj0
    norm_num [Mat.mul, Mat.of, Mat.colsAt, cur7, A7, pinvC7,
      Finset.sum_range_succ, Finset.sum_range_zero, List.getD]
  · refine Mat.eq_of_eqv _ _ (Mat.transpose_clipped _) (Mat.mul_clipped _ _)
      ⟨rfl, rfl, ?_⟩
    intro i hi j hj
    have hi0 : i = 0 := Nat.lt_one_iff.mp hi
    have hj0 : j = 0 := Nat.lt_one_iff.mp hj
    subst hi0
    subst hj0
    norm_num [Mat.transpose, Mat.mul, Mat.of, Mat.colsAt, cur7, A7, pinvC7,
      Finset.sum_range_succ, Finset.sum_range_zero, List.getD]
  · refine Mat.eq_of_eqv _ _ (Mat.transpose_clipped _) (Mat.mul_clipped _ _)
      ⟨rfl, rfl, ?_⟩
    intro i hi j hj
    have hi0 : i = 0 := Nat.lt_one_iff.mp hi
    have hj0 : j = 0 := Nat.lt_one_iff.mp hj
    subst hi0
    subst hj0
    norm_num [Mat.transpose, Mat.mul, Mat.of, Mat.colsAt, cur7, A7, pinvC7,
      Finset.sum_range_succ, Finset.sum_range_zero, List.getD]

/-- The Penrose equations at the `1×1` row block `[[2]]` of the C7
witness instance. -/
theorem MPInv_cur7_rows :
    MPInv (cur7.A.rowsAt ([0].take 1))
      (pinvC7 (cur7.A.rowsAt ([0].take 1))) := by
  refine ⟨rfl, rfl, Mat.of_clipped _ _ _, ?_, ?_, ?_, ?_⟩
  · refine Mat.eq_of_eqv _ _ (Mat.mul_clipped _ _) (Mat.of_clipped _ _ _)
      ⟨rfl, rfl, ?_⟩
    intro i hi j hj
    have hi0 : i = 0 := Nat.lt_one_iff.mp hi
    have hj0 : j = 0 := Nat.lt_one_iff.mp hj
    subst hi0
    subst hj0
    norm_num [Mat.mul, Mat.of, Mat.rowsAt, cur7, A7, pinvC7,
      Finset.sum_range_succ, Finset.sum_range_zero, List.getD]
  · refine Mat.eq_of_eqv _ _ (Mat.mul_clipped _ _) (Mat.of_clipped _ _ _)
      ⟨rfl, rfl, ?_⟩
    intro i hi j hj
    have hi0 : i = 0 := Nat.lt_one_iff.mp hi
    have hj0 : j = 0 := Nat.lt_one_iff.mp hj
    subst hi0
    subst hj0
    norm_num [Mat.mul, Mat.of, Mat.rowsAt, cur7, A7, pinvC7,
      Finset.sum_range_succ, Finset.sum_range_zero, List.getD]
  · refine Mat.eq_of_eqv _ _ (Mat.transpose_clipped _) (Mat.mul_clipped _ _)
      ⟨rfl, rfl, ?_⟩
    intro i hi j hj
    have hi0 : i = 0 := Nat.lt_one_iff.mp hi
    have hj0 : j = 0 := Nat.lt_one_iff.mp hj
    subst hi0
    subst hj0
    norm_num [Mat.transpose, Mat.mul, Mat.of, Mat.rowsAt, cur7, A7, pinvC7,
      Finset.sum_range_succ, Finset.sum_range_zero, List.getD]
  · refine Mat.eq_of_eqv _ _ (Mat.transpose_clipped _) (Mat.mul_clipped _ _)
      ⟨rfl, rfl, ?_⟩
    intro i hi j hj
    have hi0 : i = 0 := Nat.lt_one_iff.mp hi
    have hj0 : j = 0 := Nat.lt_one_iff.mp hj
    subst hi0
    subst hj0
    norm_num [Mat.transpose, Mat.mul, Mat.of, Mat.rowsAt, cur7, A7, pinvC7,
      Finset.sum_range_succ, Finset.sum_range_zero, List.getD]

end CURPy

namespace CURPy

/-- Witness for C7 at the concrete instance `cur7` (`A = [[2]]`, caches
`[0]`), the exact pseudoinverse oracle `pinvC7` and the identity
square-root oracle: the Penrose hypotheses hold and both loss calls
succeed with non-increasing values. -/
theorem C7_loss_monotone_witness :
    MPInv (cur7.A.colsAt ([0].take 0))
      (pinvC7 (cur7.A.colsAt ([0].take 0))) ∧
    MPInv (cur7.A.colsAt ([0].take (0 + 1)))
      (pinvC7 (cur7.A.colsAt ([0].take (0 + 1)))) ∧
    MPInv (arMode cur7 (cur7.A.colsAt ([0].take 0))
        ([0].take (if cur7.fs then cur7.A.c else 1)))
      (pinvC7 (arMode cur7 (cur7.A.colsAt ([0].take 0))
        ([0].take (if cur7.fs then cur7.A.c else 1)))) ∧
    MPInv (arMode cur7 (cur7.A.colsAt ([0].take (0 + 1)))
        ([0].take (if cur7.fs then cur7.A.c else 1)))
      (pinvC7 (arMode cur7 (cur7.A.colsAt ([0].take (0 + 1)))
        ([0].take (if cur7.fs then cur7.A.c else 1)))) ∧
    (∃ v₁ v₂ : ℚ,
      CUR.loss pinvC7 (fun q => q) cur7 0 (some 1) = .ok (v₁, cur7) ∧
      CUR.loss pinvC7 (fun q => q) cur7 (0 + 1) (some 1) = .ok (v₂, cur7) ∧
      v₂ ≤ v₁) :=
  ⟨MPInv_cur7_empty, MPInv_cur7_col, MPInv_cur7_rows, MPInv_cur7_rows,
   C7_loss_monotone pinvC7 (fun q => q) cur7 0 1 [0] [0]
     (fun _ _ _ h => h) (fun _ h => h) (Mat.of_clipped _ _ _)
     (fun _ => rfl) rfl rfl (Nat.le_refl 1) (Nat.le_refl 1)
     MPInv_cur7_empty MPInv_cur7_col MPInv_cur7_rows MPInv_cur7_rows⟩

end CURPy
